import Mathlib

/-!
Verification of the nog tiling window manager's layout engine (TileGrid)
and of one behaviour of its embedded scripting interpreter.

The TileGrid implementation itself (src/twm/src/tile_grid/) ships only its
test file in this copy of the repository, so the engine is modelled from the
specification's component design (spec.md sections 3, 4 and 4.6) and checked
against every concrete expectation of src/twm/src/tile_grid/tests.rs: the
serialised forms S1 to S6, the focus tours, the merge-on-remove scenarios,
the move-in and move-out scenarios and the rotation scenarios all reproduce
exactly (they appear below as theorems proved by evaluation).

Node identifiers of the arena graph are abstracted away: a grid is a tree
(every claim about the engine in the specification is stated up to
identifier renumbering), and the focused node is a path from the root.
-/

/-- Modelled from the spec: the split axis. Horizontal produces Rows,
Vertical produces Columns (spec 4.2 step 3). -/
inductive Axis where
  | horizontal
  | vertical
deriving DecidableEq, Repr

/-- Modelled from the spec: the four navigation directions. -/
inductive Dir where
  | left
  | right
  | up
  | down
deriving DecidableEq, Repr

/-- Modelled from the spec: a node of the layout tree. `tile size window` is
a leaf bound to a window; `cont ax size children` is a Row (ax horizontal)
or a Column (ax vertical) with its ordered child list (spec section 3). -/
inductive GNode where
  | tile (size : Nat) (window : Nat)
  | cont (ax : Axis) (size : Nat) (children : List GNode)

def GNode.size : GNode → Nat
  | .tile s _ => s
  | .cont _ s _ => s

def GNode.withSize : GNode → Nat → GNode
  | .tile _ w, s => .tile s w
  | .cont ax _ cs, s => .cont ax s cs

def sumSizes (cs : List GNode) : Nat := (cs.map GNode.size).sum

/-- Modelled from the spec: equal redistribution of the parent constant of
120 units over n children, the remainder going to the last child
(spec 4.3). -/
def shareSizes : Nat → List Nat
  | 0 => []
  | n + 1 => List.replicate n (120 / (n + 1)) ++ [120 / (n + 1) + 120 % (n + 1)]

def distribute (cs : List GNode) : List GNode :=
  List.zipWith GNode.withSize cs (shareSizes cs.length)

/-- Modelled from the spec: the TileGrid state: the tree, the focused
tile's path, the intended next axis and insertion side, and the
fullscreen flag (spec section 3, TileGrid state). -/
structure TileGrid where
  root : Option GNode
  focusPath : Option (List Nat)
  nextAxis : Axis
  nextDirection : Dir
  fullscreen : Bool

def emptyGrid : TileGrid :=
  { root := none, focusPath := none, nextAxis := .vertical,
    nextDirection := .right, fullscreen := false }

/-- Left and Up insert before the focused tile, Right and Down after it
(spec 4.2 step 3). -/
def Dir.isBefore : Dir → Bool
  | .left => true
  | .up => true
  | .right => false
  | .down => false

def Axis.flip : Axis → Axis
  | .horizontal => .vertical
  | .vertical => .horizontal

/-- Left and Right move along Columns, Up and Down along Rows
(spec 4.4 step 1). -/
def Dir.axis : Dir → Axis
  | .left => .vertical
  | .right => .vertical
  | .up => .horizontal
  | .down => .horizontal

def getAt : GNode → List Nat → Option GNode
  | t, [] => some t
  | GNode.tile _ _, _ :: _ => none
  | GNode.cont _ _ cs, i :: p =>
    match cs[i]? with
    | none => none
    | some c => getAt c p

def setAt (t : GNode) (p : List Nat) (v : GNode) : GNode :=
  match t, p with
  | _, [] => v
  | GNode.tile s w, _ :: _ => GNode.tile s w
  | GNode.cont cax sz cs, i :: rest =>
    match cs[i]? with
    | none => GNode.cont cax sz cs
    | some c => GNode.cont cax sz (cs.set i (setAt c rest v))

def setWindowAt (t : GNode) (p : List Nat) (w : Nat) : GNode :=
  match t, p with
  | GNode.tile s _, [] => GNode.tile s w
  | GNode.cont cax sz cs, [] => GNode.cont cax sz cs
  | GNode.tile s w0, _ :: _ => GNode.tile s w0
  | GNode.cont cax sz cs, i :: rest =>
    match cs[i]? with
    | none => GNode.cont cax sz cs
    | some c => GNode.cont cax sz (cs.set i (setWindowAt c rest w))

/-- Modelled from the spec: push (spec 4.2). The recursion walks the focus
path; at the focused tile's parent, a matching axis inserts the new tile as
a sibling on the chosen side, a mismatched axis (or a focused root) wraps
the focused node in a fresh container of the desired axis. The affected
parent is redistributed. The returned path focuses the new tile. -/
def wrapTree (t : GNode) (ax : Axis) (before : Bool) (new : GNode) : GNode :=
  GNode.cont ax t.size (distribute (if before then [new, t] else [t, new]))

def wrapIdx (before : Bool) : Nat := if before then 0 else 1

def pushTree (t : GNode) (p : List Nat) (ax : Axis) (before : Bool) (new : GNode) : GNode :=
  match t, p with
  | t, [] => wrapTree t ax before new
  | GNode.cont cax sz cs, [i] =>
    if cax = ax then
      GNode.cont cax sz (distribute (cs.insertIdx (if before then i else i + 1) new))
    else
      match cs[i]? with
      | none => GNode.cont cax sz cs
      | some c => GNode.cont cax sz (cs.set i (wrapTree c ax before new))
  | GNode.cont cax sz cs, i :: rest =>
    match cs[i]? with
    | none => GNode.cont cax sz cs
    | some c => GNode.cont cax sz (cs.set i (pushTree c rest ax before new))
  | GNode.tile s w, _ :: _ => GNode.tile s w

/-- The path of the tile just pushed, mirroring pushTree. -/
def pushPath (t : GNode) (p : List Nat) (ax : Axis) (before : Bool) : List Nat :=
  match t, p with
  | _, [] => [wrapIdx before]
  | GNode.cont cax _ cs, [i] =>
    if cax = ax then [if before then i else i + 1]
    else
      match cs[i]? with
      | none => [i]
      | some _ => i :: [wrapIdx before]
  | GNode.cont _ _ cs, i :: rest =>
    match cs[i]? with
    | none => i :: rest
    | some c => i :: pushPath c rest ax before
  | GNode.tile _ _, _ :: _ => []

def TileGrid.push (g : TileGrid) (w : Nat) : TileGrid :=
  match g.root with
  | none => { g with root := some (GNode.tile 120 w), focusPath := some [] }
  | some r =>
    match g.focusPath with
    | none => g
    | some fp =>
      { g with
        root := some (pushTree r fp g.nextAxis g.nextDirection.isBefore (GNode.tile 0 w)),
        focusPath := some (pushPath r fp g.nextAxis g.nextDirection.isBefore) }

mutual

/-- Modelled from the spec: descent into a navigation target (spec 4.4
step 3): a container matching the direction is entered at its nearest-side
child (last when moving before, first when moving after), a container not
matching the direction at its first child, as the tests' focus tours fix. -/
def descendPath (t : GNode) (d : Dir) : List Nat :=
  match t with
  | GNode.tile _ _ => []
  | GNode.cont cax _ cs =>
    if cax = d.axis ∧ d.isBefore then dpLast cs d else dpFirst cs d

def dpFirst (cs : List GNode) (d : Dir) : List Nat :=
  match cs with
  | [] => []
  | c :: _ => 0 :: descendPath c d

def dpLast (cs : List GNode) (d : Dir) : List Nat :=
  match cs with
  | [] => []
  | [c] => 0 :: descendPath c d
  | _ :: c2 :: cs2 =>
    match dpLast (c2 :: cs2) d with
    | [] => []
    | j :: q => (j + 1) :: q

end

/-- Modelled from the spec: the upward search of focus (spec 4.4 steps 1
and 2): the deepest ancestor whose axis matches the direction and whose
path child has a sibling on the required side; the result is the full new
focus path after descending into that sibling. -/
def focusFind (t : GNode) (p : List Nat) (d : Dir) : Option (List Nat) :=
  match t, p with
  | _, [] => none
  | GNode.tile _ _, _ :: _ => none
  | GNode.cont cax _ cs, i :: rest =>
    match cs[i]? with
    | none => none
    | some c =>
      match focusFind c rest d with
      | some sub => some (i :: sub)
      | none =>
        if cax = d.axis then
          if d.isBefore then
            match i, cs[i-1]? with
            | ii + 1, some s => some (ii :: descendPath s d)
            | _, _ => none
          else
            match cs[i+1]? with
            | some s => some ((i+1) :: descendPath s d)
            | none => none
        else none

def TileGrid.focus (g : TileGrid) (d : Dir) : TileGrid :=
  match g.root, g.focusPath with
  | some r, some fp =>
    match focusFind r fp d with
    | some fp2 => { g with focusPath := some fp2 }
    | none => g
  | _, _ => g

/-- Modelled from the spec: largest-remainder rescaling (spec 4.3): each
child gets the floor share s*target/120 and the leftover units go one each
to the children with the largest remainders, earlier children first on
ties, which keeps the result deterministic as required. -/
def lrOrder (rems : List Nat) : List Nat :=
  List.insertionSort
    (fun a b => rems.getD b 0 < rems.getD a 0 ∨ (rems.getD a 0 = rems.getD b 0 ∧ a ≤ b))
    (List.range rems.length)

def rescaleSizes (sizes : List Nat) (target : Nat) : List Nat :=
  let base := sizes.map (fun s => s * target / 120)
  let rems := sizes.map (fun s => s * target % 120)
  let leftover := target - base.sum
  let chosen := (lrOrder rems).take leftover
  (List.range sizes.length).map (fun i => base.getD i 0 + if i ∈ chosen then 1 else 0)

def rescale (cs : List GNode) (target : Nat) : List GNode :=
  List.zipWith GNode.withSize cs (rescaleSizes (cs.map GNode.size) target)

def spliceAt (cs : List GNode) (i : Nat) (new : List GNode) : List GNode :=
  cs.take i ++ new ++ cs.drop (i + 1)

/-- Modelled from the spec: removal of the node at a path (spec 4.2 pop):
the parent is redistributed; an only child is promoted in place of its
parent, adopting the parent's size; a promoted container of the same axis
as its new parent is merged into it, its children rescaled proportionally
(largest remainder) to the promoted size. -/
def removeAt (t : GNode) (p : List Nat) : GNode :=
  match t, p with
  | t, [] => t
  | GNode.tile s w, _ :: _ => GNode.tile s w
  | GNode.cont cax sz cs, [i] =>
    if i < cs.length then
      match cs.eraseIdx i with
      | [] => GNode.cont cax sz []
      | [c] => c.withSize sz
      | c1 :: c2 :: rest => GNode.cont cax sz (distribute (c1 :: c2 :: rest))
    else GNode.cont cax sz cs
  | GNode.cont cax sz cs, i :: rest =>
    match cs[i]? with
    | none => GNode.cont cax sz cs
    | some c =>
      match removeAt c rest with
      | GNode.cont cax2 sz2 gs =>
        if cax2 = cax then
          GNode.cont cax sz (spliceAt cs i (rescale gs sz2))
        else GNode.cont cax sz (cs.set i (GNode.cont cax2 sz2 gs))
      | c2 => GNode.cont cax sz (cs.set i c2)

mutual

def descendFirstP (t : GNode) : List Nat :=
  match t with
  | GNode.tile _ _ => []
  | GNode.cont _ _ cs => dfKids cs

def dfKids (cs : List GNode) : List Nat :=
  match cs with
  | [] => []
  | c :: _ => 0 :: descendFirstP c

end

mutual

def descendLastP (t : GNode) : List Nat :=
  match t with
  | GNode.tile _ _ => []
  | GNode.cont _ _ cs => dlKids cs

def dlKids (cs : List GNode) : List Nat :=
  match cs with
  | [] => []
  | [c] => 0 :: descendLastP c
  | _ :: c2 :: cs2 =>
    match dlKids (c2 :: cs2) with
    | [] => []
    | j :: q => (j + 1) :: q

end

/-- Walk the path as far as it is valid in the tree, then down to the first
tile, yielding a valid tile path for the focus. -/
def fixFocus (t : GNode) (p : List Nat) : List Nat :=
  match t, p with
  | t, [] => descendFirstP t
  | GNode.tile _ _, _ :: _ => []
  | GNode.cont cax sz cs, i :: rest =>
    match cs[i]? with
    | none => descendFirstP (GNode.cont cax sz cs)
    | some c => i :: fixFocus c rest

/-- Modelled from the spec: focus transfer after pop (spec 4.2): the
neighbour on the removed tile's side, the previous sibling preferred, the
next sibling otherwise, the parent's replacement after a promotion. -/
def popFocus (rOld rNew : GNode) (fp : List Nat) : List Nat :=
  let pp := fp.dropLast
  let i := fp.getLast?.getD 0
  match getAt rOld pp with
  | some (GNode.cont _ _ cs) =>
    if 3 ≤ cs.length then
      let j := if i = 0 then 0 else i - 1
      match getAt rNew (pp ++ [j]) with
      | some c =>
        pp ++ [j] ++ (if i = 0 then descendFirstP c else descendLastP c)
      | none => fixFocus rNew pp
    else fixFocus rNew pp
  | _ => fixFocus rNew pp

/-- Modelled from the spec: pop removes the focused tile (spec 4.2). A
focused root tile empties the grid. -/
def TileGrid.pop (g : TileGrid) : TileGrid :=
  match g.root, g.focusPath with
  | some r, some fp =>
    match fp with
    | [] =>
      match r with
      | GNode.tile _ _ => { g with root := none, focusPath := none }
      | _ => g
    | _ :: _ =>
      let r2 := removeAt r fp
      { g with root := some r2, focusPath := some (popFocus r r2 fp) }
  | _, _ => g

/-- Modelled from the spec: move_focused_in (spec 4.4): the focused tile is
reparented into the adjacent sibling; a sibling tile is wrapped with it in
a fresh perpendicular container (the moved tile last, as the tests fix), a
perpendicular sibling container receives it at the near end. -/
def TileGrid.moveIn (g : TileGrid) (d : Dir) : TileGrid :=
  match g.root, g.focusPath with
  | some r, some fp =>
    match fp with
    | [] => g
    | _ :: _ =>
      let pp := fp.dropLast
      let i := fp.getLast?.getD 0
      match getAt r fp, getAt r pp with
      | some (GNode.tile _ fw), some (GNode.cont pax _ cs) =>
        if d.isBefore && i = 0 then g
        else
          let j := if d.isBefore then i - 1 else i + 1
          match cs[j]? with
          | none => g
          | some sib =>
            let moved := GNode.tile 0 fw
            let wrapIt :=
              match sib with
              | GNode.cont sax ssz scs =>
                if sax = pax.flip then
                  some (GNode.cont sax ssz
                    (distribute (if d.isBefore then scs ++ [moved] else moved :: scs)),
                    if d.isBefore then scs.length else 0)
                else none
              | GNode.tile _ _ => none
            let res :=
              match wrapIt with
              | some pr => pr
              | none => (GNode.cont pax.flip sib.size (distribute [sib, moved]), 1)
            let r1 := setAt r (pp ++ [j]) res.1
            let r2 := removeAt r1 fp
            let jAfter := if d.isBefore then j else j - 1
            let focus2 :=
              if 3 ≤ cs.length then pp ++ [jAfter, res.2]
              else
                match pp with
                | [] => [res.2]
                | _ :: _ =>
                  match getAt r pp.dropLast with
                  | some (GNode.cont gax _ _) =>
                    if gax = pax.flip then
                      pp.dropLast ++ [pp.getLast?.getD 0 + res.2]
                    else pp ++ [res.2]
                  | _ => pp ++ [res.2]
            { g with root := some r2, focusPath := some (fixFocus r2 focus2) }
      | _, _ => g
  | _, _ => g

def insertChildAt (t : GNode) (q : List Nat) (j : Nat) (v : GNode) : GNode :=
  match t, q with
  | GNode.cont cax sz cs, [] => GNode.cont cax sz (distribute (cs.insertIdx j v))
  | GNode.tile s w, [] => GNode.tile s w
  | GNode.tile s w, _ :: _ => GNode.tile s w
  | GNode.cont cax sz cs, i :: rest =>
    match cs[i]? with
    | none => GNode.cont cax sz cs
    | some c => GNode.cont cax sz (cs.set i (insertChildAt c rest j v))

/-- Deepest proper ancestor of the node at the path whose axis matches the
direction, with the child index of the path at that ancestor. -/
def findMatchUp (t : GNode) (pp : List Nat) (d : Dir) : Option (List Nat × Nat) :=
  match t, pp with
  | _, [] => none
  | GNode.tile _ _, _ :: _ => none
  | GNode.cont cax _ cs, i :: rest =>
    let deeper :=
      match cs[i]? with
      | some c => (findMatchUp c rest d).map (fun pr => (i :: pr.1, pr.2))
      | none => none
    match deeper with
    | some res => some res
    | none => if cax = d.axis then some ([], i) else none

/-- Modelled from the spec: move_focused_out (spec 4.4): the focused tile
is lifted beside the path child of the nearest ancestor matching the
direction, on the direction's side; with no such ancestor a fresh
container perpendicular to the parent is created above the parent, as the
tests fix. -/
def TileGrid.moveOut (g : TileGrid) (d : Dir) : TileGrid :=
  match g.root, g.focusPath with
  | some r, some fp =>
    match fp with
    | [] => g
    | _ :: _ =>
      let pp := fp.dropLast
      match getAt r fp with
      | some (GNode.tile _ fw) =>
        let moved := GNode.tile 0 fw
        match findMatchUp r pp d with
        | some (q, k) =>
          let insIdx := if d.isBefore then k else k + 1
          let r1 := removeAt r fp
          let r2 := insertChildAt r1 q insIdx moved
          { g with root := some r2, focusPath := some (fixFocus r2 (q ++ [insIdx])) }
        | none =>
          let r1 := removeAt r fp
          match getAt r1 pp, getAt r pp with
          | some pnode, some (GNode.cont pax _ _) =>
            let inner := if d.isBefore then [moved, pnode] else [pnode, moved]
            let newC := GNode.cont pax.flip pnode.size (distribute inner)
            let r2 := setAt r1 pp newC
            let idx := if d.isBefore then 0 else 1
            { g with root := some r2, focusPath := some (fixFocus r2 (pp ++ [idx])) }
          | _, _ => g
      | _ => g
  | _, _ => g

/-- Modelled from the spec: swap_focused (spec 4.4): the same search as
focus; the focused tile and the target tile exchange windows, sizes stay
with the positions, and the focus follows the moved window. -/
def TileGrid.swapFocused (g : TileGrid) (d : Dir) : TileGrid :=
  match g.root, g.focusPath with
  | some r, some fp =>
    match focusFind r fp d with
    | some fp2 =>
      match getAt r fp, getAt r fp2 with
      | some (GNode.tile _ w1), some (GNode.tile _ w2) =>
        let r1 := setWindowAt r fp w2
        let r2 := setWindowAt r1 fp2 w1
        { g with root := some r2, focusPath := some fp2 }
      | _, _ => g
    | none => g
  | _, _ => g

/-- Nearest ancestor of the focused tile with the given axis, or none. -/
def nearestAxisAnc (t : GNode) (p : List Nat) (ax : Axis) : Option (List Nat) :=
  match t, p with
  | _, [] => none
  | GNode.tile _ _, _ :: _ => none
  | GNode.cont cax _ cs, i :: rest =>
    let deeper :=
      match cs[i]? with
      | some c => (nearestAxisAnc c rest ax).map (fun q => i :: q)
      | none => none
    match deeper with
    | some res => some res
    | none => if cax = ax then some [] else none

def distributeAt (t : GNode) (q : List Nat) : GNode :=
  match t, q with
  | GNode.cont cax sz cs, [] => GNode.cont cax sz (distribute cs)
  | GNode.tile s w, [] => GNode.tile s w
  | GNode.tile s w, _ :: _ => GNode.tile s w
  | GNode.cont cax sz cs, i :: rest =>
    match cs[i]? with
    | none => GNode.cont cax sz cs
    | some c => GNode.cont cax sz (cs.set i (distributeAt c rest))

/-- Modelled from the spec: reset_row and reset_column (spec 4.2) restore
the equal distribution among the children of the nearest ancestor of the
matching axis; with no such ancestor they are a no-op. -/
def TileGrid.resetAx (g : TileGrid) (ax : Axis) : TileGrid :=
  match g.root, g.focusPath with
  | some r, some fp =>
    match nearestAxisAnc r fp ax with
    | some q => { g with root := some (distributeAt r q) }
    | none => g
  | _, _ => g

mutual

/-- Modelled from the spec: swap_columns_and_rows rotates the whole tree,
every Row becoming a Column and vice versa, order and sizes kept
(spec 4.2). -/
def GNode.swapCR : GNode → GNode
  | .tile s w => .tile s w
  | .cont ax sz cs => .cont ax.flip sz (swapCRKids cs)

def swapCRKids : List GNode → List GNode
  | [] => []
  | c :: cs => c.swapCR :: swapCRKids cs

end

def TileGrid.swapColumnsAndRows (g : TileGrid) : TileGrid :=
  { g with root := g.root.map GNode.swapCR }

/-- The public operations of the engine (spec section 6, event inputs). -/
inductive TGAction where
  | push (w : Nat)
  | pop
  | focusDir (d : Dir)
  | swapFocused (d : Dir)
  | moveIn (d : Dir)
  | moveOut (d : Dir)
  | resetRow
  | resetColumn
  | toggleFullscreen
  | swapColumnsAndRows
  | setAxis (a : Axis)
  | setDir (d : Dir)

def stepGrid (g : TileGrid) : TGAction → TileGrid
  | .push w => g.push w
  | .pop => g.pop
  | .focusDir d => g.focus d
  | .swapFocused d => g.swapFocused d
  | .moveIn d => g.moveIn d
  | .moveOut d => g.moveOut d
  | .resetRow => g.resetAx .horizontal
  | .resetColumn => g.resetAx .vertical
  | .toggleFullscreen => { g with fullscreen := !g.fullscreen }
  | .swapColumnsAndRows => g.swapColumnsAndRows
  | .setAxis a => { g with nextAxis := a }
  | .setDir d => { g with nextDirection := d }

def runActs (acts : List TGAction) : TileGrid := acts.foldl stepGrid emptyGrid

/-- The action language of the tests' perform_actions: p pushes windows
numbered from 1 in order. -/
inductive ScriptAct where
  | p
  | o
  | axh
  | axv
  | dirl
  | dirr
  | diru
  | dird
  | fl
  | fr
  | fu
  | fd
  | sl
  | sr
  | su
  | sd
  | mil
  | mir
  | miu
  | mid
  | mol
  | mor
  | mou
  | modn
  | rr
  | rc
  | rot
  | full

def ScriptAct.toAction : ScriptAct → TGAction
  | .p => .push 0
  | .o => .pop
  | .axh => .setAxis .horizontal
  | .axv => .setAxis .vertical
  | .dirl => .setDir .left
  | .dirr => .setDir .right
  | .diru => .setDir .up
  | .dird => .setDir .down
  | .fl => .focusDir .left
  | .fr => .focusDir .right
  | .fu => .focusDir .up
  | .fd => .focusDir .down
  | .sl => .swapFocused .left
  | .sr => .swapFocused .right
  | .su => .swapFocused .up
  | .sd => .swapFocused .down
  | .mil => .moveIn .left
  | .mir => .moveIn .right
  | .miu => .moveIn .up
  | .mid => .moveIn .down
  | .mol => .moveOut .left
  | .mor => .moveOut .right
  | .mou => .moveOut .up
  | .modn => .moveOut .down
  | .rr => .resetRow
  | .rc => .resetColumn
  | .rot => .swapColumnsAndRows
  | .full => .toggleFullscreen

def scriptGo : Nat → List ScriptAct → List TGAction
  | _, [] => []
  | n, ScriptAct.p :: rest => TGAction.push (n + 1) :: scriptGo (n + 1) rest
  | n, a :: rest => a.toAction :: scriptGo n rest

def scriptToActions (s : List ScriptAct) : List TGAction := scriptGo 0 s

def runScript (s : List ScriptAct) : TileGrid := runActs (scriptToActions s)

def TileGrid.focusedWindow (g : TileGrid) : Option Nat :=
  match g.root, g.focusPath with
  | some r, some fp =>
    match getAt r fp with
    | some (GNode.tile _ w) => some w
    | _ => none
  | _, _ => none

/-- The action stream of the tests' LARGE_LAYOUT constant. -/
def largeLayout : List ScriptAct :=
  [.p, .p, .axh, .dird, .p, .p, .diru, .p, .p, .axv, .dirr, .p, .p,
   .dirl, .p, .p, .axh, .dird, .p, .diru, .p]

/-! Serialisation (spec 4.6). -/

def digitChar (n : Nat) : Char := Char.ofNat (48 + n)

def natCharsF : Nat → Nat → List Char
  | 0, n => [digitChar (n % 10)]
  | f + 1, n =>
    if n < 10 then [digitChar n] else natCharsF f (n / 10) ++ [digitChar (n % 10)]

def natChars (n : Nat) : List Char := natCharsF n n

mutual

/-- Modelled from the spec: to_string (spec 4.6), depth first, parent
before children; a tile is t idx with size and window, a container c or r
followed by idx, size and the bracketed comma-separated children; idx is
the child's position in its parent, 0 for the root. -/
def GNode.serL : GNode → Nat → List Char
  | GNode.tile sz w, idx =>
      't' :: (natChars idx ++ '|' :: natChars sz ++ '|' :: natChars w)
  | GNode.cont ax sz cs, idx =>
      (if ax = Axis.vertical then 'c' else 'r') ::
        (natChars idx ++ '|' :: natChars sz ++ '[' :: serKids cs 0 ++ [']'])

def serKids : List GNode → Nat → List Char
  | [], _ => []
  | [c], i => c.serL i
  | c :: c2 :: cs, i => c.serL i ++ ',' :: serKids (c2 :: cs) (i + 1)

end

def TileGrid.render : TileGrid → String
  | g => match g.root with
    | none => ""
    | some r => String.mk (r.serL 0)

/-! Parsing (spec 4.6): recursive descent over the grammar; the invariants
must hold after parsing or the parse fails; errors carry the length of the
remaining input (from which the offset is computed) and a reason. -/

def isDigitC (c : Char) : Bool := 48 ≤ c.toNat && c.toNat ≤ 57

def digitVal (c : Char) : Nat := c.toNat - 48

def readNatAux : List Char → Nat → Nat × List Char
  | [], acc => (acc, [])
  | c :: cs, acc =>
    if isDigitC c then readNatAux cs (acc * 10 + digitVal c) else (acc, c :: cs)

structure PErr where
  rem : Nat
  reason : String
deriving DecidableEq, Repr

def readNatE : List Char → Except PErr (Nat × List Char)
  | [] => .error ⟨0, "expected digit"⟩
  | c :: cs =>
    if isDigitC c then .ok (readNatAux (c :: cs) 0)
    else .error ⟨(c :: cs).length, "expected digit"⟩

def expectC (ch : Char) : List Char → Except PErr (List Char)
  | [] => .error ⟨0, "unexpected end of input"⟩
  | c :: cs => if c = ch then .ok cs else .error ⟨(c :: cs).length, "unexpected character"⟩

/-- Local index, size and opening bracket of a container; the index is read
and discarded (positions are implied by order). -/
def contHead (cs : List Char) : Except PErr (Nat × List Char) :=
  (readNatE cs).bind fun pr1 =>
  (expectC '|' pr1.2).bind fun cs2 =>
  (readNatE cs2).bind fun pr2 =>
  (expectC '[' pr2.2).bind fun cs3 =>
  .ok (pr2.1, cs3)

def tileBody (cs : List Char) : Except PErr (GNode × List Char) :=
  (readNatE cs).bind fun pr1 =>
  (expectC '|' pr1.2).bind fun cs2 =>
  (readNatE cs2).bind fun pr2 =>
  (expectC '|' pr2.2).bind fun cs3 =>
  (readNatE cs3).bind fun pr3 =>
  .ok (GNode.tile pr2.1 pr3.1, pr3.2)

/-- Children loop of the recursive descent: parses up to k comma-separated
nodes with the supplied node parser and consumes the closing bracket. -/
def kidsLoop (pnode : List Char → Except PErr (GNode × List Char)) :
    Nat → List Char → Except PErr (List GNode × List Char)
  | 0, cs => .error ⟨cs.length, "nesting too deep"⟩
  | k + 1, cs =>
    (pnode cs).bind fun pr =>
    match pr.2 with
    | ']' :: cs2 => .ok ([pr.1], cs2)
    | ',' :: cs2 => (kidsLoop pnode k cs2).bind fun pr2 => .ok (pr.1 :: pr2.1, pr2.2)
    | other => .error ⟨other.length, "expected a comma or a closing bracket"⟩

/-- Modelled from the spec: from_string's recursive descent (spec 4.6)
with a fuel bound on the nesting depth. -/
def parseNodeF : Nat → List Char → Except PErr (GNode × List Char)
  | 0, cs => .error ⟨cs.length, "nesting too deep"⟩
  | fuel + 1, cs =>
    match cs with
    | 't' :: cs1 => tileBody cs1
    | 'c' :: cs1 =>
      (contHead cs1).bind fun pr =>
      (kidsLoop (parseNodeF fuel) (pr.2.length + 1) pr.2).bind fun pr2 =>
      .ok (GNode.cont Axis.vertical pr.1 pr2.1, pr2.2)
    | 'r' :: cs1 =>
      (contHead cs1).bind fun pr =>
      (kidsLoop (parseNodeF fuel) (pr.2.length + 1) pr.2).bind fun pr2 =>
      .ok (GNode.cont Axis.horizontal pr.1 pr2.1, pr2.2)
    | _ => .error ⟨cs.length, "expected a node"⟩

/-! The structural invariants checked after parsing (G3, G4, G6 and the
root size; spec section 3 and 4.6). -/

mutual

def sumOkB : GNode → Bool
  | .tile _ _ => true
  | .cont _ _ cs => (sumSizes cs == 120) && sumOkKids cs

def sumOkKids : List GNode → Bool
  | [] => true
  | c :: cs => sumOkB c && sumOkKids cs

end

mutual

def minChB : GNode → Bool
  | .tile _ _ => true
  | .cont _ _ cs => (2 ≤ cs.length) && minChKids cs

def minChKids : List GNode → Bool
  | [] => true
  | c :: cs => minChB c && minChKids cs

end

mutual

def kidsFullB : GNode → Bool
  | .tile _ _ => true
  | .cont _ _ cs => (!cs.isEmpty) && kidsFullKids cs

def kidsFullKids : List GNode → Bool
  | [] => true
  | c :: cs => kidsFullB c && kidsFullKids cs

end

def notSameAxis (ax : Axis) : GNode → Bool
  | GNode.tile _ _ => true
  | GNode.cont ax2 _ _ => decide (ax2 ≠ ax)

mutual

def noNestB : GNode → Bool
  | .tile _ _ => true
  | .cont ax _ cs => noNestKids ax cs

def noNestKids (ax : Axis) : List GNode → Bool
  | [] => true
  | c :: cs => (notSameAxis ax c && noNestB c) && noNestKids ax cs

end

def wellFormedB (t : GNode) : Bool :=
  sumOkB t && kidsFullB t && noNestB t && (t.size == 120)

/-- Modelled from the spec: from_string parses the whole input and commits
the invariant-checked tree, or fails without touching anything. -/
def fromChars (cs : List Char) : Except PErr GNode :=
  (parseNodeF (cs.length + 1) cs).bind fun pr =>
  match pr.2 with
  | [] => if wellFormedB pr.1 then .ok pr.1 else .error ⟨0, "invariants violated"⟩
  | other => .error ⟨other.length, "trailing characters"⟩

structure ParseError where
  offset : Nat
  reason : String
deriving DecidableEq, Repr

/-- Modelled from the spec: ParseError(offset, reason) is returned to the
caller and the engine state is unchanged; parsing builds into a staging
value and commits atomically on success (spec section 7). -/
def TileGrid.fromString (g : TileGrid) (s : String) : TileGrid × Except ParseError Unit :=
  match fromChars s.data with
  | .ok t =>
    ({ g with root := some t, focusPath := some (descendFirstP t) }, .ok ())
  | .error e => (g, .error ⟨s.length - e.rem, e.reason⟩)

/-! Tree observations used by the structural claims. -/

mutual

def GNode.windows : GNode → List Nat
  | .tile _ w => [w]
  | .cont _ _ cs => windowsKids cs

def windowsKids : List GNode → List Nat
  | [] => []
  | c :: cs => c.windows ++ windowsKids cs

end

def axisAt (t : GNode) (p : List Nat) : Option Axis :=
  match getAt t p with
  | some (GNode.cont ax _ _) => some ax
  | _ => none

def childCountAt (t : GNode) (p : List Nat) : Option Nat :=
  match getAt t p with
  | some (GNode.cont _ _ cs) => some cs.length
  | _ => none

mutual

/-- The tree with every size erased: the structure in the sense of the
spec's P5 (variant tags, order, windows). -/
def stripSizes : GNode → GNode
  | .tile _ w => .tile 0 w
  | .cont ax _ cs => .cont ax 0 (stripKids cs)

def stripKids : List GNode → List GNode
  | [] => []
  | c :: cs => stripSizes c :: stripKids cs

end

/-! Horizontal geometry (spec 4.5): the x offset and width of the node at a
path, slicing the width in Columns and inheriting it in Rows. -/

def sliceOffset (cs : List GNode) (i : Nat) (w : Nat) : Nat :=
  ((cs.take i).map (fun c => w * c.size / 120)).sum

def xLeftAt (t : GNode) (p : List Nat) (x w : Nat) : Nat :=
  match t, p with
  | _, [] => x
  | GNode.tile _ _, _ :: _ => x
  | GNode.cont cax _ cs, i :: rest =>
    match cs[i]? with
    | none => x
    | some c =>
      if cax = Axis.vertical then
        xLeftAt c rest (x + sliceOffset cs i w) (w * c.size / 120)
      else xLeftAt c rest x w

def TileGrid.focusX (g : TileGrid) (w : Nat) : Nat :=
  match g.root, g.focusPath with
  | some r, some fp => xLeftAt r fp 0 w
  | _, _ => 0

/-! The scripting interpreter's default array class
(src/interpreter/src/interpreter.rs, create_default_classes). The Dynamic
value type lives in a file not shipped here; the variants the array class
inspects are modelled. -/

inductive DynVal where
  | number (n : Int)
  | boolean (b : Bool)
  | strD (s : String)
  | array (items : List DynVal)
  | null

inductive Operator where
  | add
  | equal
  | greaterThan
  | greaterThanOrEqual
  | lessThan
  | lessThanOrEqual
  | index
  | call
  | constructor
deriving DecidableEq

/-- Outcome of a class operator implementation: a value, the todo marker,
the unreachable marker, or the panic of indexing an empty argument list. -/
inductive OpOutcome where
  | value (v : DynVal)
  | todoReached
  | unreachableReached
  | indexPanic

/-- The array Equal implementation of interpreter.rs lines 723 to 736: the
reference &args[0] is taken (panicking on an empty argument list), then
todo!() runs unconditionally, before the if-let ever inspects the
operands. -/
def arrayEqualImpl (this : DynVal) (args : List DynVal) : OpOutcome :=
  match this, args with
  | _, [] => .indexPanic
  | _, _ :: _ => .todoReached

/-- The array Add implementation: concatenates two arrays. -/
def arrayAddImpl (this : DynVal) (args : List DynVal) : OpOutcome :=
  match this with
  | .array items =>
    match args with
    | [] => .indexPanic
    | a :: _ =>
      match a with
      | .array x => .value (.array (items ++ x))
      | _ => .todoReached
  | _ => .unreachableReached

/-- The array Index implementation: fetches by number, null when out of
range. -/
def arrayIndexImpl (this : DynVal) (args : List DynVal) : OpOutcome :=
  match this with
  | .array items =>
    match args with
    | [] => .indexPanic
    | a :: _ =>
      match a with
      | .number x =>
        .value (if x < 0 then .null else items.getD x.toNat .null)
      | _ => .todoReached
  | _ => .unreachableReached

/-- The operator table of the array class from create_default_classes. -/
def arrayClassOp : Operator → Option (DynVal → List DynVal → OpOutcome)
  | .equal => some arrayEqualImpl
  | .add => some arrayAddImpl
  | .index => some arrayIndexImpl
  | _ => none

def invB (t : GNode) : Bool := sumOkB t && minChB t

def gridInv (g : TileGrid) : Bool :=
  match g.root with
  | none => true
  | some r => invB r

def serializeTree (t : GNode) : String := String.mk (t.serL 0)

def noDigitHead : List Char → Bool
  | [] => true
  | c :: _ => !isDigitC c

mutual

/-- Nesting depth of a tree, bounding the parser fuel it needs. -/
def gdepth : GNode → Nat
  | .tile _ _ => 1
  | .cont _ _ cs => 1 + kdepth cs

def kdepth : List GNode → Nat
  | [] => 0
  | c :: cs => max (gdepth c) (kdepth cs)

end

/-- A small concrete grid: a two-tile column with the first tile focused
and the push direction right. -/
def c7WitnessGrid : TileGrid :=
  { root := some (GNode.cont Axis.vertical 120 [GNode.tile 60 1, GNode.tile 60 2]),
    focusPath := some [0], nextAxis := Axis.vertical,
    nextDirection := Dir.right, fullscreen := false }

/-! Theorems. -/

set_option maxRecDepth 40000

/-- C5: starting from an empty grid, the LARGE action stream (windows
numbered 1..12 in push order) serialises to exactly the expected string
(tests.rs to_string_large_layout; spec S6). -/
theorem nog_C5_large_layout :
    (runScript largeLayout).render =
      "c0|120[t0|60|1,r1|60[t0|24|2,t1|24|3,c2|24[t0|24|6,t1|24|7,r2|24[t0|40|10,t1|40|12,t2|40|11],t3|24|9,t4|24|8],t3|24|5,t4|24|4]]" := by
  decide

/-- C10: on the three-pushes grid (tiles 1, 2, 3, focus on 3),
move_focused_out Up and Left produce identical grids, namely a root Row
with tile 3 first and a Column of tiles 1 and 2 second, and Down and Right
produce identical grids with tile 3 last
(tests.rs move_focused_out_3_column_tiles_to_1_row_2_column). -/
theorem nog_C10_move_out_collapse :
    runScript [.p, .p, .p, .mou] = runScript [.p, .p, .p, .mol] ∧
    runScript [.p, .p, .p, .modn] = runScript [.p, .p, .p, .mor] ∧
    (runScript [.p, .p, .p, .mol]).root =
      some (GNode.cont .horizontal 120
        [GNode.tile 60 3, GNode.cont .vertical 60 [GNode.tile 60 1, GNode.tile 60 2]]) ∧
    (runScript [.p, .p, .p, .mor]).root =
      some (GNode.cont .horizontal 120
        [GNode.cont .vertical 60 [GNode.tile 60 1, GNode.tile 60 2], GNode.tile 60 3]) :=
  ⟨rfl, rfl, rfl, rfl⟩

/-- C9: the array class's Equal operator runs todo!() before inspecting
either operand (interpreter.rs create_default_classes): for any two array
operands the outcome is the todo marker and never a Boolean value. -/
theorem nog_C9_array_equal_todo :
    ∀ (xs ys : List DynVal) (rest : List DynVal),
      arrayClassOp Operator.equal = some arrayEqualImpl ∧
      arrayEqualImpl (.array xs) (.array ys :: rest) = .todoReached ∧
      ∀ b, arrayEqualImpl (.array xs) (.array ys :: rest) ≠ .value (DynVal.boolean b) := by
  intro xs ys rest
  refine ⟨rfl, rfl, ?_⟩
  intro b h
  simp [arrayEqualImpl] at h

theorem GNode.size_withSize (t : GNode) (s : Nat) : (t.withSize s).size = s := by
  cases t <;> rfl

theorem map_size_zipWith_withSize (cs : List GNode) (ss : List Nat)
    (h : cs.length = ss.length) :
    (List.zipWith GNode.withSize cs ss).map GNode.size = ss := by
  induction cs generalizing ss with
  | nil => cases ss with
    | nil => rfl
    | cons s ss2 => simp at h
  | cons c cs2 ih =>
    cases ss with
    | nil => simp at h
    | cons s ss2 =>
      simp only [List.zipWith_cons_cons, List.map_cons, GNode.size_withSize]
      simp only [List.length_cons, Nat.add_right_cancel_iff] at h
      rw [ih ss2 h]

theorem shareSizes_length (n : Nat) : (shareSizes n).length = n := by
  cases n with
  | zero => rfl
  | succ m => simp [shareSizes]

theorem shareSizes_getElem (n i : Nat) (h : i < n) :
    (shareSizes n)[i]? = some (if i = n - 1 then 120 / n + 120 % n else 120 / n) := by
  cases n with
  | zero => omega
  | succ m =>
    simp only [shareSizes]
    rcases Nat.lt_or_ge i m with him | him
    · rw [List.getElem?_append]
      simp only [List.length_replicate, him, if_pos]
      rw [List.getElem?_replicate, if_pos him,
        if_neg (show ¬ i = m + 1 - 1 by omega)]
    · have him2 : i = m := by omega
      subst him2
      rw [List.getElem?_append]
      simp

/-- C4: the size redistribution used by every structural mutation assigns
each of the n children 120 / n, the remainder 120 % n added to the last
child in order; in particular for n = 1..6 the shares are 120, 60, 40, 30,
24 and 20 (tests.rs make_space_for_node_test_check_size_distributions). -/
theorem nog_C4_size_distribution :
    (∀ (cs : List GNode) (i : Nat), i < cs.length →
      ((distribute cs).map GNode.size)[i]? =
        some (if i = cs.length - 1 then 120 / cs.length + 120 % cs.length
              else 120 / cs.length)) ∧
    shareSizes 1 = [120] ∧
    shareSizes 2 = [60, 60] ∧
    shareSizes 3 = [40, 40, 40] ∧
    shareSizes 4 = [30, 30, 30, 30] ∧
    shareSizes 5 = [24, 24, 24, 24, 24] ∧
    shareSizes 6 = [20, 20, 20, 20, 20, 20] := by
  refine ⟨?_, by decide, by decide, by decide, by decide, by decide, by decide⟩
  intro cs i h
  unfold distribute
  rw [map_size_zipWith_withSize cs _ (shareSizes_length cs.length).symm]
  exact shareSizes_getElem cs.length i h

/-- Witness for C4 at two children, first child: the share is 60. -/
theorem nog_C4_size_distribution_witness :
    ((distribute [GNode.tile 0 1, GNode.tile 0 2]).map GNode.size)[0]? = some 60 :=
  nog_C4_size_distribution.1 [GNode.tile 0 1, GNode.tile 0 2] 0 (by decide)

theorem Axis.flip_flip (a : Axis) : a.flip.flip = a := by
  cases a <;> rfl

mutual

theorem GNode.swapCR_swapCR (t : GNode) : t.swapCR.swapCR = t := by
  cases t with
  | tile s w => rfl
  | cont ax sz cs =>
    simp only [GNode.swapCR, swapCRKids_swapCRKids, Axis.flip_flip]

theorem swapCRKids_swapCRKids (cs : List GNode) : swapCRKids (swapCRKids cs) = cs := by
  cases cs with
  | nil => rfl
  | cons c cs2 =>
    simp only [swapCRKids, GNode.swapCR_swapCR, swapCRKids_swapCRKids]

end

theorem swapCRKids_getElem (cs : List GNode) (i : Nat) :
    (swapCRKids cs)[i]? = cs[i]?.map GNode.swapCR := by
  induction cs generalizing i with
  | nil => simp [swapCRKids]
  | cons c cs2 ih =>
    cases i with
    | zero => simp [swapCRKids]
    | succ j => simpa [swapCRKids] using ih j

theorem swapCRKids_length (cs : List GNode) : (swapCRKids cs).length = cs.length := by
  induction cs with
  | nil => rfl
  | cons c cs2 ih => simp [swapCRKids, ih]

theorem getAt_swapCR (t : GNode) (p : List Nat) :
    getAt t.swapCR p = (getAt t p).map GNode.swapCR := by
  induction p generalizing t with
  | nil => simp [getAt]
  | cons i rest ih =>
    cases t with
    | tile s w => simp [GNode.swapCR, getAt]
    | cont ax sz cs =>
      simp only [GNode.swapCR, getAt, swapCRKids_getElem]
      cases h : cs[i]? with
      | none => simp
      | some c => simpa using ih c

mutual

theorem GNode.windows_swapCR (t : GNode) : t.swapCR.windows = t.windows := by
  cases t with
  | tile s w => rfl
  | cont ax sz cs => simp only [GNode.swapCR, GNode.windows, windowsKids_swapCRKids]

theorem windowsKids_swapCRKids (cs : List GNode) :
    windowsKids (swapCRKids cs) = windowsKids cs := by
  cases cs with
  | nil => rfl
  | cons c cs2 =>
    simp only [swapCRKids, windowsKids, GNode.windows_swapCR, windowsKids_swapCRKids]

end

/-- C3: swap_columns_and_rows turns every Row into a Column and vice versa
(the axis at every path flips), keeps every child list's length and
left-to-right order, keeps every tile with its window at the same path,
and applying it twice is the identity, on trees and on whole grids. -/
theorem nog_C3_swap_columns_and_rows :
    (∀ t : GNode, t.swapCR.swapCR = t) ∧
    (∀ g : TileGrid, g.swapColumnsAndRows.swapColumnsAndRows = g) ∧
    (∀ (t : GNode) (p : List Nat), axisAt t.swapCR p = (axisAt t p).map Axis.flip) ∧
    (∀ (t : GNode) (p : List Nat), childCountAt t.swapCR p = childCountAt t p) ∧
    (∀ (t : GNode) (p : List Nat) (s w : Nat),
      getAt t p = some (GNode.tile s w) → getAt t.swapCR p = some (GNode.tile s w)) ∧
    (∀ t : GNode, t.swapCR.windows = t.windows) := by
  refine ⟨GNode.swapCR_swapCR, ?_, ?_, ?_, ?_, GNode.windows_swapCR⟩
  · intro g
    cases g with
    | mk root focusPath nextAxis nextDirection fullscreen =>
      simp only [TileGrid.swapColumnsAndRows, Option.map_map]
      cases root with
      | none => rfl
      | some r => simp [Function.comp, GNode.swapCR_swapCR]
  · intro t p
    unfold axisAt
    rw [getAt_swapCR]
    cases h : getAt t p with
    | none => rfl
    | some u => cases u with
      | tile s w => rfl
      | cont ax sz cs => simp [GNode.swapCR]
  · intro t p
    unfold childCountAt
    rw [getAt_swapCR]
    cases h : getAt t p with
    | none => rfl
    | some u => cases u with
      | tile s w => rfl
      | cont ax sz cs => simp [GNode.swapCR, swapCRKids_length]
  · intro t p s w h
    rw [getAt_swapCR, h]
    rfl

/-- Witness for C3's tile-preservation hypothesis at a concrete grid. -/
theorem nog_C3_swap_columns_and_rows_witness :
    getAt (GNode.cont .vertical 120 [GNode.tile 60 1, GNode.tile 60 2]).swapCR [1] =
      some (GNode.tile 60 2) :=
  nog_C3_swap_columns_and_rows.2.2.2.2.1
    (GNode.cont .vertical 120 [GNode.tile 60 1, GNode.tile 60 2]) [1] 60 2 rfl

/-! Invariant machinery for C1: every operation preserves the 120-sum and
the two-children-minimum of every container. -/

theorem sumOkB_withSize (t : GNode) (s : Nat) : sumOkB (t.withSize s) = sumOkB t := by
  cases t <;> rfl

theorem minChB_withSize (t : GNode) (s : Nat) : minChB (t.withSize s) = minChB t := by
  cases t <;> rfl

theorem invB_withSize (t : GNode) (s : Nat) : invB (t.withSize s) = invB t := by
  simp [invB, sumOkB_withSize, minChB_withSize]

theorem sumOkKids_iff (cs : List GNode) :
    sumOkKids cs = true ↔ ∀ c ∈ cs, sumOkB c = true := by
  induction cs with
  | nil => simp [sumOkKids]
  | cons c cs2 ih => simp [sumOkKids, ih]

theorem minChKids_iff (cs : List GNode) :
    minChKids cs = true ↔ ∀ c ∈ cs, minChB c = true := by
  induction cs with
  | nil => simp [minChKids]
  | cons c cs2 ih => simp [minChKids, ih]

theorem sumOkB_cont (ax : Axis) (s : Nat) (cs : List GNode) :
    sumOkB (GNode.cont ax s cs) = true ↔
      sumSizes cs = 120 ∧ ∀ c ∈ cs, sumOkB c = true := by
  simp [sumOkB, sumOkKids_iff]

theorem minChB_cont (ax : Axis) (s : Nat) (cs : List GNode) :
    minChB (GNode.cont ax s cs) = true ↔
      2 ≤ cs.length ∧ ∀ c ∈ cs, minChB c = true := by
  simp [minChB, minChKids_iff]

theorem invB_cont (ax : Axis) (s : Nat) (cs : List GNode) :
    invB (GNode.cont ax s cs) = true ↔
      (sumSizes cs = 120 ∧ 2 ≤ cs.length) ∧ ∀ c ∈ cs, invB c = true := by
  simp only [invB, Bool.and_eq_true, sumOkB_cont, minChB_cont]
  constructor
  · rintro ⟨⟨h1, h2⟩, h3, h4⟩
    exact ⟨⟨h1, h3⟩, fun c hc => by simp [invB, h2 c hc, h4 c hc]⟩
  · rintro ⟨⟨h1, h3⟩, h⟩
    refine ⟨⟨h1, fun c hc => ?_⟩, h3, fun c hc => ?_⟩ <;>
      have := h c hc <;> simp [invB, Bool.and_eq_true] at this <;> tauto

theorem invB_tile (s w : Nat) : invB (GNode.tile s w) = true := rfl

theorem shareSizes_sum (n : Nat) (h : 0 < n) : (shareSizes n).sum = 120 := by
  cases n with
  | zero => omega
  | succ m =>
    simp only [shareSizes, List.sum_append, List.sum_replicate, List.sum_cons,
      List.sum_nil, smul_eq_mul]
    have hdm := Nat.div_add_mod 120 (m + 1)
    have h2 : (m + 1) * (120 / (m + 1)) = m * (120 / (m + 1)) + 120 / (m + 1) := by
      ring
    omega

theorem sumSizes_zipWith_withSize (cs : List GNode) (ss : List Nat)
    (h : cs.length = ss.length) :
    sumSizes (List.zipWith GNode.withSize cs ss) = ss.sum := by
  unfold sumSizes
  rw [map_size_zipWith_withSize cs ss h]

theorem sumSizes_distribute (cs : List GNode) (h : 0 < cs.length) :
    sumSizes (distribute cs) = 120 := by
  unfold distribute
  rw [sumSizes_zipWith_withSize cs _ (shareSizes_length cs.length).symm]
  exact shareSizes_sum cs.length h

theorem distribute_length (cs : List GNode) : (distribute cs).length = cs.length := by
  simp [distribute, shareSizes_length]

theorem mem_zipWith_withSize (cs : List GNode) (ss : List Nat) (x : GNode)
    (hx : x ∈ List.zipWith GNode.withSize cs ss) :
    ∃ c ∈ cs, ∃ s, x = c.withSize s := by
  induction cs generalizing ss with
  | nil => simp at hx
  | cons c cs2 ih =>
    cases ss with
    | nil => simp at hx
    | cons s ss2 =>
      simp only [List.zipWith_cons_cons, List.mem_cons] at hx
      rcases hx with h | h
      · exact ⟨c, by simp, s, h⟩
      · obtain ⟨c2, hc2, s2, hs2⟩ := ih ss2 h
        exact ⟨c2, by simp [hc2], s2, hs2⟩

theorem mem_distribute (cs : List GNode) (x : GNode) (hx : x ∈ distribute cs) :
    ∃ c ∈ cs, ∃ s, x = c.withSize s :=
  mem_zipWith_withSize cs _ x hx

theorem mem_rescale (cs : List GNode) (target : Nat) (x : GNode)
    (hx : x ∈ rescale cs target) :
    ∃ c ∈ cs, ∃ s, x = c.withSize s :=
  mem_zipWith_withSize cs _ x hx

theorem invB_distribute (cs : List GNode) (h : ∀ c ∈ cs, invB c = true)
    (x : GNode) (hx : x ∈ distribute cs) : invB x = true := by
  obtain ⟨c, hc, s, rfl⟩ := mem_distribute cs x hx
  rw [invB_withSize]
  exact h c hc

theorem mem_insertIdx_elim (l : List GNode) (n : Nat) (a x : GNode)
    (hx : x ∈ l.insertIdx n a) : x = a ∨ x ∈ l := by
  induction l generalizing n with
  | nil =>
    cases n with
    | zero => simp [List.insertIdx] at hx; exact Or.inl hx
    | succ m => simp [List.insertIdx] at hx
  | cons b l2 ih =>
    cases n with
    | zero => simpa [List.insertIdx] using hx
    | succ m =>
      simp only [List.insertIdx_succ_cons, List.mem_cons] at hx
      rcases hx with h | h
      · exact Or.inr (by simp [h])
      · rcases ih m h with h2 | h2
        · exact Or.inl h2
        · exact Or.inr (by simp [h2])

theorem range_map_getD (l : List Nat) :
    ((List.range l.length).map (fun i => l.getD i 0)).sum = l.sum := by
  induction l with
  | nil => rfl
  | cons a l2 ih =>
    rw [List.length_cons, List.range_succ_eq_map, List.map_cons, List.map_map,
      List.sum_cons]
    have : ((List.range l2.length).map ((fun i => (a :: l2).getD i 0) ∘ Nat.succ)) =
        (List.range l2.length).map (fun i => l2.getD i 0) := by
      apply List.map_congr_left
      intro i hi
      rfl
    rw [this, ih]
    rfl

theorem divmod_sum_identity (sizes : List Nat) (target : Nat) :
    (sizes.map (fun s => s * target)).sum =
      120 * (sizes.map (fun s => s * target / 120)).sum +
        (sizes.map (fun s => s * target % 120)).sum := by
  induction sizes with
  | nil => rfl
  | cons a l ih =>
    simp only [List.map_cons, List.sum_cons]
    have := Nat.div_add_mod (a * target) 120
    have h2 : 120 * ((a * target / 120) + (l.map (fun s => s * target / 120)).sum) =
        120 * (a * target / 120) + 120 * (l.map (fun s => s * target / 120)).sum := by
      ring
    omega

theorem rems_sum_le (sizes : List Nat) (target : Nat) :
    (sizes.map (fun s => s * target % 120)).sum ≤ 119 * sizes.length := by
  induction sizes with
  | nil => simp
  | cons a l ih =>
    simp only [List.map_cons, List.sum_cons, List.length_cons]
    have h1 : a * target % 120 ≤ 119 := by
      have := Nat.mod_lt (a * target) (show 0 < 120 by omega)
      omega
    have h2 : 119 * (l.length + 1) = 119 * l.length + 119 := by ring
    omega

theorem base_sum_le (sizes : List Nat) (target : Nat) (hsum : sizes.sum = 120) :
    (sizes.map (fun s => s * target / 120)).sum ≤ target := by
  have hid := divmod_sum_identity sizes target
  have hmul : (sizes.map (fun s => s * target)).sum = sizes.sum * target := by
    simpa using List.sum_map_mul_right sizes (fun s => s) target
  rw [hsum] at hmul
  omega

theorem leftover_lt (sizes : List Nat) (target : Nat) (hsum : sizes.sum = 120)
    (hlen : 0 < sizes.length) :
    target - (sizes.map (fun s => s * target / 120)).sum < sizes.length := by
  have hid := divmod_sum_identity sizes target
  have hmul : (sizes.map (fun s => s * target)).sum = sizes.sum * target := by
    simpa using List.sum_map_mul_right sizes (fun s => s) target
  rw [hsum] at hmul
  have hrem := rems_sum_le sizes target
  have h119 : 119 * sizes.length < 120 * sizes.length := by
    have : 0 < sizes.length := hlen
    nlinarith
  -- 120 * target = 120 * base + rems, rems < 120 * len, so target - base < len
  have hb := base_sum_le sizes target hsum
  by_contra hcon
  push_neg at hcon
  have : 120 * sizes.length ≤
      120 * (target - (sizes.map (fun s => s * target / 120)).sum) := by omega
  omega

theorem lrOrder_perm (rems : List Nat) :
    (lrOrder rems).Perm (List.range rems.length) :=
  List.perm_insertionSort _ _

theorem lrOrder_nodup (rems : List Nat) : (lrOrder rems).Nodup :=
  ((lrOrder_perm rems).nodup_iff).mpr (List.nodup_range rems.length)

theorem lrOrder_mem_lt (rems : List Nat) (x : Nat) (hx : x ∈ lrOrder rems) :
    x < rems.length :=
  List.mem_range.mp ((lrOrder_perm rems).mem_iff.mp hx)

theorem indicator_sum (n : Nat) (chosen : List Nat) (hnd : chosen.Nodup)
    (hlt : ∀ x ∈ chosen, x < n) :
    ((List.range n).map (fun i => if i ∈ chosen then 1 else 0)).sum = chosen.length := by
  have hbridge : ((List.range n).map (fun i => if i ∈ chosen then 1 else 0)).sum =
      ∑ i ∈ Finset.range n, (if i ∈ chosen then 1 else 0) := rfl
  rw [hbridge]
  rw [show (∑ i ∈ Finset.range n, (if i ∈ chosen then (1 : Nat) else 0)) =
      ((Finset.range n).filter (fun i => i ∈ chosen)).card by
    simp [Finset.sum_boole]]
  have hfe : (Finset.range n).filter (fun i => i ∈ chosen) = chosen.toFinset := by
    apply Finset.ext
    intro x
    simp only [Finset.mem_filter, Finset.mem_range, List.mem_toFinset]
    exact ⟨fun h => h.2, fun h => ⟨hlt x h, h⟩⟩
  rw [hfe]
  exact List.toFinset_card_of_nodup hnd

theorem rescaleSizes_sum (sizes : List Nat) (target : Nat)
    (hsum : sizes.sum = 120) (hlen : 0 < sizes.length) :
    (rescaleSizes sizes target).sum = target := by
  unfold rescaleSizes
  set base := sizes.map (fun s => s * target / 120) with hbase
  set rems := sizes.map (fun s => s * target % 120) with hrems
  set leftover := target - base.sum with hleft
  set chosen := (lrOrder rems).take leftover with hchosen
  have hbl : base.length = sizes.length := by simp [hbase]
  have hrl : rems.length = sizes.length := by simp [hrems]
  have hsplit : ((List.range sizes.length).map
      (fun i => base.getD i 0 + if i ∈ chosen then 1 else 0)).sum =
      ((List.range sizes.length).map (fun i => base.getD i 0)).sum +
      ((List.range sizes.length).map (fun i => if i ∈ chosen then 1 else 0)).sum := by
    rw [← List.sum_map_add]
  rw [hsplit]
  have h1 : ((List.range sizes.length).map (fun i => base.getD i 0)).sum = base.sum := by
    rw [← hbl]
    exact range_map_getD base
  have hnd : chosen.Nodup :=
    (List.take_sublist _ _).nodup (lrOrder_nodup rems)
  have hlt : ∀ x ∈ chosen, x < sizes.length := by
    intro x hx
    have := lrOrder_mem_lt rems x (List.mem_of_mem_take hx)
    omega
  have h2 := indicator_sum sizes.length chosen hnd hlt
  have hlo : leftover < sizes.length := by
    rw [hleft, hbase]
    exact leftover_lt sizes target hsum hlen
  have hcl : chosen.length = leftover := by
    rw [hchosen, List.length_take]
    have : (lrOrder rems).length = sizes.length := by
      rw [(lrOrder_perm rems).length_eq, List.length_range, hrl]
    omega
  have hble : base.sum ≤ target := by
    rw [hbase]
    exact base_sum_le sizes target hsum
  rw [h1, h2, hcl]
  omega

theorem rescaleSizes_length (sizes : List Nat) (target : Nat) :
    (rescaleSizes sizes target).length = sizes.length := by
  simp [rescaleSizes]

theorem sumSizes_rescale (cs : List GNode) (target : Nat)
    (hsum : sumSizes cs = 120) (hlen : 0 < cs.length) :
    sumSizes (rescale cs target) = target := by
  unfold rescale
  rw [sumSizes_zipWith_withSize cs _ (by simp [rescaleSizes_length])]
  apply rescaleSizes_sum
  · exact hsum
  · simpa using hlen

theorem rescale_length (cs : List GNode) (target : Nat) :
    (rescale cs target).length = cs.length := by
  simp [rescale, rescaleSizes_length]

theorem sumSizes_set (cs : List GNode) (i : Nat) (v c : GNode)
    (hc : cs[i]? = some c) :
    sumSizes (cs.set i v) + c.size = sumSizes cs + v.size := by
  induction cs generalizing i with
  | nil => simp at hc
  | cons a l ih =>
    cases i with
    | zero =>
      simp only [List.getElem?_cons_zero, Option.some.injEq] at hc
      subst hc
      simp only [List.set_cons_zero, sumSizes, List.map_cons, List.sum_cons]
      omega
    | succ j =>
      simp only [List.getElem?_cons_succ] at hc
      have := ih j hc
      simp only [List.set_cons_succ, sumSizes, List.map_cons, List.sum_cons]
      simp only [sumSizes] at this
      omega

theorem sumSizes_append (l1 l2 : List GNode) :
    sumSizes (l1 ++ l2) = sumSizes l1 + sumSizes l2 := by
  simp [sumSizes]

theorem sumSizes_take_drop (cs : List GNode) (i : Nat) (c : GNode)
    (hc : cs[i]? = some c) :
    sumSizes (cs.take i) + c.size + sumSizes (cs.drop (i + 1)) = sumSizes cs := by
  induction cs generalizing i with
  | nil => simp at hc
  | cons a l ih =>
    cases i with
    | zero =>
      simp only [List.getElem?_cons_zero, Option.some.injEq] at hc
      subst hc
      simp [sumSizes]
    | succ j =>
      simp only [List.getElem?_cons_succ] at hc
      have := ih j hc
      simp only [List.take_succ_cons, List.drop_succ_cons, sumSizes, List.map_cons,
        List.sum_cons] at this ⊢
      omega

theorem sumSizes_spliceAt (cs : List GNode) (i : Nat) (new : List GNode) (c : GNode)
    (hc : cs[i]? = some c) :
    sumSizes (spliceAt cs i new) + c.size = sumSizes cs + sumSizes new := by
  unfold spliceAt
  rw [sumSizes_append, sumSizes_append]
  have := sumSizes_take_drop cs i c hc
  omega

theorem spliceAt_length (cs : List GNode) (i : Nat) (new : List GNode) (c : GNode)
    (hc : cs[i]? = some c) :
    (spliceAt cs i new).length + 1 = cs.length + new.length := by
  have hi : i < cs.length := by
    by_contra hcon
    push_neg at hcon
    rw [List.getElem?_eq_none hcon] at hc
    exact Option.noConfusion hc
  unfold spliceAt
  simp only [List.length_append, List.length_take, List.length_drop]
  omega

theorem mem_spliceAt (cs : List GNode) (i : Nat) (new : List GNode) (x : GNode)
    (hx : x ∈ spliceAt cs i new) : x ∈ cs ∨ x ∈ new := by
  unfold spliceAt at hx
  simp only [List.mem_append] at hx
  rcases hx with (h | h) | h
  · exact Or.inl (List.take_subset i cs h)
  · exact Or.inr h
  · exact Or.inl (List.drop_subset (i + 1) cs h)

theorem getElem?_mem_list (cs : List GNode) (i : Nat) (c : GNode)
    (hc : cs[i]? = some c) : c ∈ cs := by
  obtain ⟨hlt, he⟩ := List.getElem?_eq_some.mp hc
  exact he ▸ List.getElem_mem hlt

theorem invB_getAt (t : GNode) (p : List Nat) (u : GNode)
    (hinv : invB t = true) (hu : getAt t p = some u) : invB u = true := by
  induction p generalizing t with
  | nil =>
    simp only [getAt, Option.some.injEq] at hu
    exact hu ▸ hinv
  | cons i rest ih =>
    cases t with
    | tile s w => simp [getAt] at hu
    | cont ax sz cs =>
      simp only [getAt] at hu
      cases hc : cs[i]? with
      | none => rw [hc] at hu; exact Option.noConfusion hu
      | some c =>
        rw [hc] at hu
        have hkids := (invB_cont ax sz cs).mp hinv
        exact ih c (hkids.2 c (getElem?_mem_list cs i c hc)) hu

theorem sumOkB_getAt (t : GNode) (p : List Nat) (ax : Axis) (s : Nat)
    (cs : List GNode) (hinv : invB t = true)
    (hu : getAt t p = some (GNode.cont ax s cs)) : sumSizes cs = 120 :=
  (((invB_cont ax s cs).mp (invB_getAt t p _ hinv hu)).1).1

theorem wrapTree_size (t : GNode) (ax : Axis) (b : Bool) (new : GNode) :
    (wrapTree t ax b new).size = t.size := rfl

theorem pushTree_size (t : GNode) (p : List Nat) (ax : Axis) (b : Bool) (new : GNode) :
    (pushTree t p ax b new).size = t.size := by
  induction p generalizing t with
  | nil => cases t <;> rfl
  | cons i rest ih =>
    cases t with
    | tile s w => rfl
    | cont cax sz cs =>
      cases rest with
      | nil =>
        simp only [pushTree]
        by_cases hax : cax = ax
        · simp [hax, GNode.size]
        · simp only [if_neg hax]
          cases cs[i]? <;> rfl
      | cons j q =>
        simp only [pushTree]
        cases cs[i]? <;> rfl

theorem removeAt_size (t : GNode) (p : List Nat) : (removeAt t p).size = t.size := by
  induction p generalizing t with
  | nil => cases t <;> rfl
  | cons i rest ih =>
    cases t with
    | tile s w => cases rest <;> rfl
    | cont cax sz cs =>
      cases rest with
      | nil =>
        simp only [removeAt]
        by_cases hi : i < cs.length
        · simp only [if_pos hi]
          cases he : cs.eraseIdx i with
          | nil => rfl
          | cons c1 l1 =>
            cases l1 with
            | nil => cases c1 <;> rfl
            | cons c2 l2 => rfl
        · simp [if_neg hi]
      | cons j q =>
        cases hc : cs[i]? with
        | none => simp [removeAt, hc]
        | some c =>
          simp only [removeAt, hc]
          cases hr : removeAt c (j :: q) with
          | tile s2 w2 => simp [GNode.size]
          | cont ax2 sz2 gs =>
            by_cases hax : ax2 = cax
            · simp [hax, GNode.size]
            · simp [hax, GNode.size]

theorem length_le_insertIdx (l : List GNode) (n : Nat) (a : GNode) :
    l.length ≤ (l.insertIdx n a).length := by
  induction l generalizing n with
  | nil => cases n <;> simp [List.insertIdx]
  | cons b l2 ih =>
    cases n with
    | zero => simp [List.insertIdx]
    | succ m =>
      simp only [List.insertIdx_succ_cons, List.length_cons]
      exact Nat.succ_le_succ (ih m)

theorem invB_wrapTree (t : GNode) (ax : Axis) (b : Bool) (new : GNode)
    (ht : invB t = true) (hn : invB new = true) :
    invB (wrapTree t ax b new) = true := by
  unfold wrapTree
  rw [invB_cont]
  set inner := if b then [new, t] else [t, new] with hinner
  have hlen : inner.length = 2 := by
    rw [hinner]; cases b <;> rfl
  refine ⟨⟨?_, ?_⟩, ?_⟩
  · exact sumSizes_distribute inner (by omega)
  · rw [distribute_length]; omega
  · intro c hc
    apply invB_distribute inner _ c hc
    intro x hx
    rw [hinner] at hx
    cases b <;> simp at hx <;> rcases hx with rfl | rfl <;> assumption

theorem invB_pushTree (t : GNode) (p : List Nat) (ax : Axis) (b : Bool) (new : GNode)
    (ht : invB t = true) (hn : invB new = true) :
    invB (pushTree t p ax b new) = true := by
  induction p generalizing t with
  | nil => cases t <;> exact invB_wrapTree _ ax b new ht hn
  | cons i rest ih =>
    cases t with
    | tile s w =>
      cases rest <;> exact ht
    | cont cax sz cs =>
      have hcont := (invB_cont cax sz cs).mp ht
      cases rest with
      | nil =>
        simp only [pushTree]
        by_cases hax : cax = ax
        · simp only [if_pos hax]
          rw [invB_cont]
          have hilen : cs.length ≤ (cs.insertIdx (if b then i else i + 1) new).length :=
            length_le_insertIdx cs _ new
          refine ⟨⟨?_, ?_⟩, ?_⟩
          · exact sumSizes_distribute _ (by omega)
          · rw [distribute_length]; omega
          · intro c hc
            apply invB_distribute _ _ c hc
            intro x hx
            rcases mem_insertIdx_elim cs _ new x hx with rfl | hmem
            · exact hn
            · exact hcont.2 x hmem
        · simp only [if_neg hax]
          cases hc : cs[i]? with
          | none => exact ht
          | some c =>
            rw [invB_cont]
            have hw : invB (wrapTree c ax b new) = true :=
              invB_wrapTree c ax b new (hcont.2 c (getElem?_mem_list cs i c hc)) hn
            have hsz : (wrapTree c ax b new).size = c.size := rfl
            have hset := sumSizes_set cs i (wrapTree c ax b new) c hc
            refine ⟨⟨by omega, by simp [hcont.1.2]⟩, ?_⟩
            intro x hx
            rcases List.mem_or_eq_of_mem_set hx with hmem | rfl
            · exact hcont.2 x hmem
            · exact hw
      | cons j q =>
        simp only [pushTree]
        cases hc : cs[i]? with
        | none => exact ht
        | some c =>
          rw [invB_cont]
          have hcmem := getElem?_mem_list cs i c hc
          have hrec : invB (pushTree c (j :: q) ax b new) = true :=
            ih c (hcont.2 c hcmem)
          have hsz := pushTree_size c (j :: q) ax b new
          have hset := sumSizes_set cs i (pushTree c (j :: q) ax b new) c hc
          refine ⟨⟨by omega, by simp [hcont.1.2]⟩, ?_⟩
          intro x hx
          rcases List.mem_or_eq_of_mem_set hx with hmem | rfl
          · exact hcont.2 x hmem
          · exact hrec

theorem invB_removeAt (t : GNode) (p : List Nat) (ht : invB t = true) :
    invB (removeAt t p) = true := by
  induction p generalizing t with
  | nil => cases t <;> exact ht
  | cons i rest ih =>
    cases t with
    | tile s w => cases rest <;> exact ht
    | cont cax sz cs =>
      have hcont := (invB_cont cax sz cs).mp ht
      cases rest with
      | nil =>
        simp only [removeAt]
        by_cases hi : i < cs.length
        · simp only [if_pos hi]
          cases he : cs.eraseIdx i with
          | nil =>
            exfalso
            have hl := List.length_eraseIdx cs i
            rw [he, if_pos hi] at hl
            have := hcont.1.2
            simp at hl
            omega
          | cons c1 l1 =>
            cases l1 with
            | nil =>
              rw [invB_withSize]
              have hc1 : c1 ∈ cs.eraseIdx i := by rw [he]; simp
              exact hcont.2 c1 (List.eraseIdx_subset cs i hc1)
            | cons c2 l2 =>
              rw [invB_cont]
              refine ⟨⟨sumSizes_distribute _ (by simp), ?_⟩, ?_⟩
              · rw [distribute_length]; simp
              · intro x hx
                apply invB_distribute _ _ x hx
                intro y hy
                have hy2 : y ∈ cs.eraseIdx i := by rw [he]; exact hy
                exact hcont.2 y (List.eraseIdx_subset cs i hy2)
        · simp only [if_neg hi]; exact ht
      | cons j q =>
        cases hc : cs[i]? with
        | none => simpa [removeAt, hc] using ht
        | some c =>
          simp only [removeAt, hc]
          have hcmem := getElem?_mem_list cs i c hc
          have hcinv := hcont.2 c hcmem
          have hrec := ih c hcinv
          have hrsz := removeAt_size c (j :: q)
          cases hr : removeAt c (j :: q) with
          | tile s2 w2 =>
            rw [hr] at hrec hrsz
            rw [invB_cont]
            have hset := sumSizes_set cs i (GNode.tile s2 w2) c hc
            have hs2 : s2 = c.size := hrsz
            rw [show (GNode.tile s2 w2).size = s2 from rfl] at hset
            refine ⟨⟨?_, by simp [hcont.1.2]⟩, ?_⟩
            · have h120 := hcont.1.1
              omega
            · intro x hx
              rcases List.mem_or_eq_of_mem_set hx with hmem | rfl
              · exact hcont.2 x hmem
              · exact hrec
          | cont ax2 sz2 gs =>
            rw [hr] at hrec hrsz
            have hgs := (invB_cont ax2 sz2 gs).mp hrec
            by_cases hax : ax2 = cax
            · simp only [if_pos hax]
              rw [invB_cont]
              have hsplice := sumSizes_spliceAt cs i (rescale gs sz2) c hc
              have hrs : sumSizes (rescale gs sz2) = sz2 :=
                sumSizes_rescale gs sz2 hgs.1.1 (by have := hgs.1.2; omega)
              have hslen := spliceAt_length cs i (rescale gs sz2) c hc
              have hsz2 : sz2 = c.size := hrsz
              refine ⟨⟨?_, ?_⟩, ?_⟩
              · have h120 := hcont.1.1
                omega
              · rw [rescale_length] at hslen
                have := hgs.1.2
                have := hcont.1.2
                omega
              · intro x hx
                rcases mem_spliceAt cs i _ x hx with hmem | hmem
                · exact hcont.2 x hmem
                · obtain ⟨y, hy, s3, rfl⟩ := mem_rescale gs sz2 x hmem
                  rw [invB_withSize]
                  exact hgs.2 y hy
            · simp only [if_neg hax]
              rw [invB_cont]
              have hset := sumSizes_set cs i (GNode.cont ax2 sz2 gs) c hc
              have hsz2 : sz2 = c.size := hrsz
              rw [show (GNode.cont ax2 sz2 gs).size = sz2 from rfl] at hset
              refine ⟨⟨?_, by simp [hcont.1.2]⟩, ?_⟩
              · have h120 := hcont.1.1
                omega
              · intro x hx
                rcases List.mem_or_eq_of_mem_set hx with hmem | rfl
                · exact hcont.2 x hmem
                · exact hrec

theorem invB_setAt (t : GNode) (p : List Nat) (v : GNode) (ht : invB t = true)
    (hv : invB v = true)
    (hsz : ∀ u, getAt t p = some u → v.size = u.size) :
    invB (setAt t p v) = true := by
  induction p generalizing t with
  | nil => exact (by cases t <;> exact hv)
  | cons i rest ih =>
    cases t with
    | tile s w => exact ht
    | cont cax sz cs =>
      have hcont := (invB_cont cax sz cs).mp ht
      simp only [setAt]
      cases hc : cs[i]? with
      | none => exact ht
      | some c =>
        have hcmem := getElem?_mem_list cs i c hc
        have hsub : ∀ u, getAt c rest = some u → v.size = u.size := by
          intro u hu
          apply hsz
          simp [getAt, hc, hu]
        have hrec := ih c (hcont.2 c hcmem) hsub
        rw [invB_cont]
        have hset := sumSizes_set cs i (setAt c rest v) c hc
        have hszp : (setAt c rest v).size = c.size := by
          clear hset hrec
          induction rest generalizing c with
          | nil =>
            have := hsub c (by simp [getAt])
            simpa [setAt] using this
          | cons j q ih2 =>
            cases c with
            | tile s2 w2 => rfl
            | cont ax2 sz2 cs2 =>
              simp only [setAt]
              cases hc2 : cs2[j]? with
              | none => rfl
              | some c2 => rfl
        refine ⟨⟨by omega, by simp [hcont.1.2]⟩, ?_⟩
        intro x hx
        rcases List.mem_or_eq_of_mem_set hx with hmem | rfl
        · exact hcont.2 x hmem
        · exact hrec

theorem invB_insertChildAt (t : GNode) (q : List Nat) (j : Nat) (v : GNode)
    (ht : invB t = true) (hv : invB v = true) :
    invB (insertChildAt t q j v) = true := by
  induction q generalizing t with
  | nil =>
    cases t with
    | tile s w => exact ht
    | cont cax sz cs =>
      have hcont := (invB_cont cax sz cs).mp ht
      simp only [insertChildAt]
      rw [invB_cont]
      have hilen := length_le_insertIdx cs j v
      refine ⟨⟨sumSizes_distribute _ (by omega), by rw [distribute_length]; omega⟩, ?_⟩
      intro x hx
      apply invB_distribute _ _ x hx
      intro y hy
      rcases mem_insertIdx_elim cs j v y hy with rfl | hmem
      · exact hv
      · exact hcont.2 y hmem
  | cons i rest ih =>
    cases t with
    | tile s w => exact ht
    | cont cax sz cs =>
      have hcont := (invB_cont cax sz cs).mp ht
      simp only [insertChildAt]
      cases hc : cs[i]? with
      | none => exact ht
      | some c =>
        have hcmem := getElem?_mem_list cs i c hc
        have hrec := ih c (hcont.2 c hcmem)
        have hszp : (insertChildAt c rest j v).size = c.size := by
          cases c with
          | tile s2 w2 => cases rest <;> rfl
          | cont ax2 sz2 cs2 =>
            cases rest with
            | nil => rfl
            | cons a b =>
              simp only [insertChildAt]
              cases cs2[a]? <;> rfl
        rw [invB_cont]
        have hset := sumSizes_set cs i (insertChildAt c rest j v) c hc
        refine ⟨⟨by omega, by simp [hcont.1.2]⟩, ?_⟩
        intro x hx
        rcases List.mem_or_eq_of_mem_set hx with hmem | rfl
        · exact hcont.2 x hmem
        · exact hrec

theorem invB_distributeAt (t : GNode) (q : List Nat) (ht : invB t = true) :
    invB (distributeAt t q) = true := by
  induction q generalizing t with
  | nil =>
    cases t with
    | tile s w => exact ht
    | cont cax sz cs =>
      have hcont := (invB_cont cax sz cs).mp ht
      simp only [distributeAt]
      rw [invB_cont]
      refine ⟨⟨sumSizes_distribute _ (by have := hcont.1.2; omega),
        by rw [distribute_length]; exact hcont.1.2⟩, ?_⟩
      intro x hx
      exact invB_distribute cs hcont.2 x hx
  | cons i rest ih =>
    cases t with
    | tile s w => exact ht
    | cont cax sz cs =>
      have hcont := (invB_cont cax sz cs).mp ht
      simp only [distributeAt]
      cases hc : cs[i]? with
      | none => exact ht
      | some c =>
        have hcmem := getElem?_mem_list cs i c hc
        have hrec := ih c (hcont.2 c hcmem)
        have hszp : (distributeAt c rest).size = c.size := by
          cases c with
          | tile s2 w2 => cases rest <;> rfl
          | cont ax2 sz2 cs2 =>
            cases rest with
            | nil => rfl
            | cons a b =>
              simp only [distributeAt]
              cases cs2[a]? <;> rfl
        rw [invB_cont]
        have hset := sumSizes_set cs i (distributeAt c rest) c hc
        refine ⟨⟨by omega, by simp [hcont.1.2]⟩, ?_⟩
        intro x hx
        rcases List.mem_or_eq_of_mem_set hx with hmem | rfl
        · exact hcont.2 x hmem
        · exact hrec

theorem setWindowAt_size (t : GNode) (p : List Nat) (w : Nat) :
    (setWindowAt t p w).size = t.size := by
  cases t with
  | tile s w0 => cases p <;> rfl
  | cont cax sz cs =>
    cases p with
    | nil => rfl
    | cons i rest =>
      simp only [setWindowAt]
      cases cs[i]? <;> rfl

theorem invB_setWindowAt (t : GNode) (p : List Nat) (w : Nat) (ht : invB t = true) :
    invB (setWindowAt t p w) = true := by
  induction p generalizing t with
  | nil => cases t <;> exact ht
  | cons i rest ih =>
    cases t with
    | tile s w0 => exact ht
    | cont cax sz cs =>
      have hcont := (invB_cont cax sz cs).mp ht
      simp only [setWindowAt]
      cases hc : cs[i]? with
      | none => exact ht
      | some c =>
        have hcmem := getElem?_mem_list cs i c hc
        have hrec := ih c (hcont.2 c hcmem)
        rw [invB_cont]
        have hset := sumSizes_set cs i (setWindowAt c rest w) c hc
        have hszp := setWindowAt_size c rest w
        refine ⟨⟨by omega, by simp [hcont.1.2]⟩, ?_⟩
        intro x hx
        rcases List.mem_or_eq_of_mem_set hx with hmem | rfl
        · exact hcont.2 x hmem
        · exact hrec

theorem GNode.size_swapCR (t : GNode) : t.swapCR.size = t.size := by
  cases t <;> rfl

theorem sumSizes_swapCRKids (cs : List GNode) :
    sumSizes (swapCRKids cs) = sumSizes cs := by
  induction cs with
  | nil => rfl
  | cons c cs2 ih =>
    simp only [swapCRKids, sumSizes, List.map_cons, List.sum_cons] at ih ⊢
    rw [GNode.size_swapCR]
    omega

mutual

theorem invB_swapCR (t : GNode) (ht : invB t = true) : invB t.swapCR = true := by
  cases t with
  | tile s w => exact ht
  | cont ax sz cs =>
    have hcont := (invB_cont ax sz cs).mp ht
    simp only [GNode.swapCR]
    rw [invB_cont]
    refine ⟨⟨by rw [sumSizes_swapCRKids]; exact hcont.1.1,
      by rw [swapCRKids_length]; exact hcont.1.2⟩, ?_⟩
    exact invB_swapCRKids cs hcont.2

theorem invB_swapCRKids (cs : List GNode) (h : ∀ c ∈ cs, invB c = true) :
    ∀ x ∈ swapCRKids cs, invB x = true := by
  cases cs with
  | nil => simp [swapCRKids]
  | cons c cs2 =>
    intro x hx
    simp only [swapCRKids, List.mem_cons] at hx
    rcases hx with rfl | hx2
    · exact invB_swapCR c (h c (by simp))
    · exact invB_swapCRKids cs2 (fun y hy => h y (by simp [hy])) x hx2

end

theorem getAt_append (t : GNode) (p q : List Nat) :
    getAt t (p ++ q) = (getAt t p).bind (fun u => getAt u q) := by
  induction p generalizing t with
  | nil => simp [getAt]
  | cons i rest ih =>
    cases t with
    | tile s w => simp [getAt]
    | cont ax sz cs =>
      simp only [List.cons_append, getAt]
      cases cs[i]? with
      | none => rfl
      | some c => exact ih c

theorem getAt_single (ax : Axis) (sz : Nat) (cs : List GNode) (j : Nat) :
    getAt (GNode.cont ax sz cs) [j] = cs[j]? := by
  simp only [getAt]
  cases cs[j]? <;> rfl

theorem gridInv_root (g : TileGrid) (r : GNode) (hg : gridInv g = true)
    (hr : g.root = some r) : invB r = true := by
  unfold gridInv at hg
  rw [hr] at hg
  exact hg

theorem gridInv_push (g : TileGrid) (w : Nat) (hg : gridInv g = true) :
    gridInv (g.push w) = true := by
  unfold TileGrid.push
  cases hroot : g.root with
  | none => rfl
  | some r =>
    cases hfp : g.focusPath with
    | none => exact hg
    | some fp =>
      have hr := gridInv_root g r hg hroot
      exact invB_pushTree r fp _ _ _ hr rfl

theorem gridInv_pop (g : TileGrid) (hg : gridInv g = true) :
    gridInv g.pop = true := by
  unfold TileGrid.pop
  cases hroot : g.root with
  | none => exact hg
  | some r =>
    cases hfp : g.focusPath with
    | none => exact hg
    | some fp =>
      have hr := gridInv_root g r hg hroot
      cases fp with
      | nil =>
        cases r with
        | tile s w => rfl
        | cont ax sz cs => exact hg
      | cons i rest => exact invB_removeAt r (i :: rest) hr

theorem gridInv_focus (g : TileGrid) (d : Dir) (hg : gridInv g = true) :
    gridInv (g.focus d) = true := by
  unfold TileGrid.focus
  cases hroot : g.root with
  | none => exact hg
  | some r =>
    cases hfp : g.focusPath with
    | none => exact hg
    | some fp =>
      dsimp only
      cases focusFind r fp d with
      | none => exact hg
      | some fp2 =>
        have hr := gridInv_root g r hg hroot
        exact hr

theorem gridInv_swapFocused (g : TileGrid) (d : Dir) (hg : gridInv g = true) :
    gridInv (g.swapFocused d) = true := by
  unfold TileGrid.swapFocused
  cases hroot : g.root with
  | none => exact hg
  | some r =>
    cases hfp : g.focusPath with
    | none => exact hg
    | some fp =>
      have hr := gridInv_root g r hg hroot
      dsimp only
      cases focusFind r fp d with
      | none => exact hg
      | some fp2 =>
        cases hg1 : getAt r fp with
        | none => exact hg
        | some u1 =>
          cases u1 with
          | cont ax sz cs => exact hg
          | tile s1 w1 =>
            dsimp only
            cases hg2 : getAt r fp2 with
            | none => exact hg
            | some u2 =>
              cases u2 with
              | cont ax sz cs => exact hg
              | tile s2 w2 =>
                exact invB_setWindowAt _ fp2 w1 (invB_setWindowAt r fp w2 hr)

theorem gridInv_resetAx (g : TileGrid) (ax : Axis) (hg : gridInv g = true) :
    gridInv (g.resetAx ax) = true := by
  unfold TileGrid.resetAx
  cases hroot : g.root with
  | none => exact hg
  | some r =>
    cases hfp : g.focusPath with
    | none => exact hg
    | some fp =>
      have hr := gridInv_root g r hg hroot
      dsimp only
      cases nearestAxisAnc r fp ax with
      | none => exact hg
      | some q => exact invB_distributeAt r q hr

theorem gridInv_swapColumnsAndRows (g : TileGrid) (hg : gridInv g = true) :
    gridInv g.swapColumnsAndRows = true := by
  unfold TileGrid.swapColumnsAndRows
  cases hroot : g.root with
  | none => rfl
  | some r =>
    have hr := gridInv_root g r hg hroot
    exact invB_swapCR r hr

theorem gridInv_moveIn (g : TileGrid) (d : Dir) (hg : gridInv g = true) :
    gridInv (g.moveIn d) = true := by
  unfold TileGrid.moveIn
  cases hroot : g.root with
  | none => exact hg
  | some r =>
    cases hfp : g.focusPath with
    | none => exact hg
    | some fp =>
      have hr := gridInv_root g r hg hroot
      cases fp with
      | nil => exact hg
      | cons i0 rest0 =>
        try dsimp only
        cases hg1 : getAt r (i0 :: rest0) with
        | none => exact hg
        | some u1 =>
          cases u1 with
          | cont ax1 sz1 cs1 => exact hg
          | tile fsz fw =>
            try dsimp only
            cases hg2 : getAt r (List.dropLast (i0 :: rest0)) with
            | none => exact hg
            | some u2 =>
              cases u2 with
              | tile s2 w2 => exact hg
              | cont pax psz cs =>
                have hu2 : invB (GNode.cont pax psz cs) = true :=
                  invB_getAt r _ _ hr hg2
                have hkids := ((invB_cont pax psz cs).mp hu2).2
                try dsimp only
                split
                · exact hg
                · cases hsib : cs[if d.isBefore = true then
                      (i0 :: rest0).getLast?.getD 0 - 1
                    else (i0 :: rest0).getLast?.getD 0 + 1]? with
                  | none => exact hg
                  | some sib =>
                    have hsibinv : invB sib = true :=
                      hkids sib (getElem?_mem_list _ _ _ hsib)
                    have hgj : getAt r ((i0 :: rest0).dropLast ++
                        [if d.isBefore = true then (i0 :: rest0).getLast?.getD 0 - 1
                         else (i0 :: rest0).getLast?.getD 0 + 1]) = some sib := by
                      rw [getAt_append, hg2]
                      exact (getAt_single pax psz cs _).trans hsib
                    cases sib with
                    | tile ssz sw =>
                      try dsimp only
                      apply invB_removeAt
                      apply invB_setAt r _ _ hr
                      · rw [invB_cont]
                        refine ⟨⟨sumSizes_distribute _ (by simp), by rw [distribute_length]; simp⟩, ?_⟩
                        intro x hx
                        apply invB_distribute _ _ x hx
                        intro y hy
                        simp only [List.mem_cons, List.not_mem_nil, or_false] at hy
                        rcases hy with rfl | rfl
                        · exact hsibinv
                        · rfl
                      · intro u hu
                        rw [hgj] at hu
                        cases hu
                        rfl
                    | cont sax ssz scs =>
                      have hsibc := (invB_cont sax ssz scs).mp hsibinv
                      by_cases hperp : sax = pax.flip
                      · simp only [if_pos hperp]
                        try dsimp only
                        -- perpendicular container: insert at the near end
                        apply invB_removeAt
                        apply invB_setAt r _ _ hr
                        · rw [invB_cont]
                          have hl : 1 ≤ scs.length := by have := hsibc.1.2; omega
                          constructor
                          · constructor
                            · apply sumSizes_distribute
                              split <;> simp [hl]
                            · rw [distribute_length]
                              split <;> simp [hl]
                          · intro x hx
                            apply invB_distribute _ _ x hx
                            intro y hy
                            have hy2 : y = GNode.tile 0 fw ∨ y ∈ scs := by
                              split at hy
                              · simp only [List.mem_append, List.mem_cons,
                                  List.not_mem_nil, or_false] at hy
                                tauto
                              · simp only [List.mem_cons] at hy
                                tauto
                            rcases hy2 with rfl | hy2
                            · rfl
                            · exact hsibc.2 y hy2
                        · intro u hu
                          rw [hgj] at hu
                          cases hu
                          rfl
                      · simp only [if_neg hperp]
                        try dsimp only
                        -- same-axis sibling container: wrap it
                        apply invB_removeAt
                        apply invB_setAt r _ _ hr
                        · rw [invB_cont]
                          refine ⟨⟨sumSizes_distribute _ (by simp),
                            by rw [distribute_length]; simp⟩, ?_⟩
                          intro x hx
                          apply invB_distribute _ _ x hx
                          intro y hy
                          simp only [List.mem_cons, List.not_mem_nil, or_false] at hy
                          rcases hy with rfl | rfl
                          · exact hsibinv
                          · rfl
                        · intro u hu
                          rw [hgj] at hu
                          cases hu
                          rfl

theorem gridInv_moveOut (g : TileGrid) (d : Dir) (hg : gridInv g = true) :
    gridInv (g.moveOut d) = true := by
  unfold TileGrid.moveOut
  cases hroot : g.root with
  | none => exact hg
  | some r =>
    cases hfp : g.focusPath with
    | none => exact hg
    | some fp =>
      have hr := gridInv_root g r hg hroot
      cases fp with
      | nil => exact hg
      | cons i0 rest0 =>
        try dsimp only
        cases hg1 : getAt r (i0 :: rest0) with
        | none => exact hg
        | some u1 =>
          cases u1 with
          | cont ax1 sz1 cs1 => exact hg
          | tile fsz fw =>
            try dsimp only
            cases hfm : findMatchUp r (List.dropLast (i0 :: rest0)) d with
            | some pr =>
              cases pr with
              | mk q k =>
                try dsimp only
                apply invB_insertChildAt
                · exact invB_removeAt r _ hr
                · rfl
            | none =>
              try dsimp only
              cases hgp : getAt (removeAt r (i0 :: rest0)) (List.dropLast (i0 :: rest0)) with
              | none => exact hg
              | some pnode =>
                try dsimp only
                cases hgp2 : getAt r (List.dropLast (i0 :: rest0)) with
                | none => exact hg
                | some u2 =>
                  cases u2 with
                  | tile s2 w2 => exact hg
                  | cont pax psz cs =>
                    have hr1 : invB (removeAt r (i0 :: rest0)) = true :=
                      invB_removeAt r _ hr
                    have hpinv : invB pnode = true :=
                      invB_getAt _ _ _ hr1 hgp
                    try dsimp only
                    apply invB_setAt _ _ _ hr1
                    · rw [invB_cont]
                      have hdl : (if d.isBefore = true
                          then [GNode.tile 0 fw, pnode]
                          else [pnode, GNode.tile 0 fw]).length = 2 := by
                        split <;> rfl
                      refine ⟨⟨sumSizes_distribute _ (by omega),
                        by rw [distribute_length]; omega⟩, ?_⟩
                      intro x hx
                      apply invB_distribute _ _ x hx
                      intro y hy
                      have hy2 : y = GNode.tile 0 fw ∨ y = pnode := by
                        split at hy <;> simp at hy <;> tauto
                      rcases hy2 with rfl | rfl
                      · rfl
                      · exact hpinv
                    · intro u hu
                      rw [hgp] at hu
                      cases hu
                      rfl

theorem gridInv_step (g : TileGrid) (a : TGAction) (hg : gridInv g = true) :
    gridInv (stepGrid g a) = true := by
  cases a with
  | push w => exact gridInv_push g w hg
  | pop => exact gridInv_pop g hg
  | focusDir d => exact gridInv_focus g d hg
  | swapFocused d => exact gridInv_swapFocused g d hg
  | moveIn d => exact gridInv_moveIn g d hg
  | moveOut d => exact gridInv_moveOut g d hg
  | resetRow => exact gridInv_resetAx g .horizontal hg
  | resetColumn => exact gridInv_resetAx g .vertical hg
  | toggleFullscreen => exact hg
  | swapColumnsAndRows => exact gridInv_swapColumnsAndRows g hg
  | setAxis ax => exact hg
  | setDir d => exact hg

theorem gridInv_runActs (acts : List TGAction) : gridInv (runActs acts) = true := by
  unfold runActs
  have hgen : ∀ (l : List TGAction) (g : TileGrid), gridInv g = true →
      gridInv (l.foldl stepGrid g) = true := by
    intro l
    induction l with
    | nil => intro g hg; exact hg
    | cons a l2 ih =>
      intro g hg
      exact ih (stepGrid g a) (gridInv_step g a hg)
  exact hgen acts emptyGrid rfl

/-- C1: from the empty grid, after every finite sequence of public
operations, every internal node (Row or Column) of the resulting tree has
children whose sizes sum to exactly 120 (the G6 and P2 invariant). -/
theorem nog_C1_sizes_sum_120 (acts : List TGAction) (r : GNode) (p : List Nat)
    (ax : Axis) (s : Nat) (cs : List GNode)
    (hroot : (runActs acts).root = some r)
    (hnode : getAt r p = some (GNode.cont ax s cs)) :
    sumSizes cs = 120 := by
  have hr : invB r = true := gridInv_root (runActs acts) r (gridInv_runActs acts) hroot
  exact sumOkB_getAt r p ax s cs hr hnode

/-- Witness for C1: after two pushes the root Column's children sizes sum
to 120. -/
theorem nog_C1_sizes_sum_120_witness :
    sumSizes [GNode.tile 60 1, GNode.tile 60 2] = 120 :=
  nog_C1_sizes_sum_120 [TGAction.push 1, TGAction.push 2]
    (GNode.cont .vertical 120 [GNode.tile 60 1, GNode.tile 60 2]) []
    .vertical 120 [GNode.tile 60 1, GNode.tile 60 2] rfl rfl

/-! Codec machinery for C2: parsing inverts serialisation. -/

theorem isDigitC_digitChar (d : Nat) (h : d < 10) : isDigitC (digitChar d) = true := by
  interval_cases d <;> decide

theorem digitVal_digitChar (d : Nat) (h : d < 10) : digitVal (digitChar d) = d := by
  interval_cases d <;> decide

theorem natCharsF_digits (f n : Nat) :
    ∀ c ∈ natCharsF f n, ∃ d, d < 10 ∧ c = digitChar d := by
  induction f generalizing n with
  | zero =>
    intro c hc
    simp only [natCharsF, List.mem_singleton] at hc
    exact ⟨n % 10, Nat.mod_lt n (by omega), hc⟩
  | succ f2 ih =>
    intro c hc
    simp only [natCharsF] at hc
    by_cases hn : n < 10
    · rw [if_pos hn] at hc
      simp only [List.mem_singleton] at hc
      exact ⟨n, hn, hc⟩
    · rw [if_neg hn] at hc
      simp only [List.mem_append, List.mem_singleton] at hc
      rcases hc with hc | hc
      · exact ih (n / 10) c hc
      · exact ⟨n % 10, Nat.mod_lt n (by omega), hc⟩

theorem natCharsF_length_pos (f n : Nat) : 0 < (natCharsF f n).length := by
  cases f with
  | zero => simp [natCharsF]
  | succ f2 =>
    simp only [natCharsF]
    split <;> simp

theorem natCharsF_foldl (f : Nat) :
    ∀ n acc, n ≤ f →
      (natCharsF f n).foldl (fun a c => a * 10 + digitVal c) acc =
        acc * 10 ^ (natCharsF f n).length + n := by
  induction f with
  | zero =>
    intro n acc hn
    have hn0 : n = 0 := by omega
    subst hn0
    simp [natCharsF, digitVal_digitChar 0 (by omega)]
  | succ f2 ih =>
    intro n acc hn
    simp only [natCharsF]
    by_cases hlt : n < 10
    · rw [if_pos hlt]
      simp [digitVal_digitChar n hlt]
    · rw [if_neg hlt]
      rw [List.foldl_append]
      have hdiv : n / 10 ≤ f2 := by
        have h1 : n / 10 ≤ n - 9 := by omega
        omega
      rw [ih (n / 10) acc hdiv]
      simp only [List.foldl_cons, List.foldl_nil, List.length_append,
        List.length_singleton]
      rw [digitVal_digitChar (n % 10) (Nat.mod_lt n (by omega))]
      have hmod := Nat.div_add_mod n 10
      set k := (natCharsF f2 (n / 10)).length
      have hpow : 10 ^ (k + 1) = 10 ^ k * 10 := by ring
      rw [hpow]
      have : (acc * 10 ^ k + n / 10) * 10 = acc * (10 ^ k * 10) + n / 10 * 10 := by
        ring
      omega

theorem readNatAux_digits (ds : List Char) :
    ∀ rest acc, (∀ c ∈ ds, isDigitC c = true) →
      readNatAux (ds ++ rest) acc =
        readNatAux rest (ds.foldl (fun a c => a * 10 + digitVal c) acc) := by
  induction ds with
  | nil => intro rest acc _; rfl
  | cons c ds2 ih =>
    intro rest acc hd
    simp only [List.cons_append, readNatAux, List.foldl_cons]
    rw [if_pos (hd c (by simp))]
    exact ih rest _ (fun x hx => hd x (by simp [hx]))

theorem readNatAux_stop (rest : List Char) (acc : Nat)
    (h : noDigitHead rest = true) : readNatAux rest acc = (acc, rest) := by
  cases rest with
  | nil => rfl
  | cons c cs =>
    simp only [noDigitHead, Bool.not_eq_true'] at h
    simp [readNatAux, h]

theorem readNatE_natChars (n : Nat) (rest : List Char)
    (h : noDigitHead rest = true) :
    readNatE (natChars n ++ rest) = .ok (n, rest) := by
  unfold natChars
  have hne := natCharsF_length_pos n n
  cases hnc : natCharsF n n with
  | nil => rw [hnc] at hne; simp at hne
  | cons c cs0 =>
    have hcd : ∃ d, d < 10 ∧ c = digitChar d := by
      apply natCharsF_digits n n
      rw [hnc]; simp
    obtain ⟨d, hd, rfl⟩ := hcd
    simp only [List.cons_append, readNatE]
    rw [if_pos (isDigitC_digitChar d hd)]
    have hdall : ∀ x ∈ natCharsF n n, isDigitC x = true := by
      intro x hx
      obtain ⟨d2, hd2, rfl⟩ := natCharsF_digits n n x hx
      exact isDigitC_digitChar d2 hd2
    rw [show digitChar d :: (cs0 ++ rest) = natCharsF n n ++ rest by rw [hnc]; rfl]
    rw [readNatAux_digits (natCharsF n n) rest 0 hdall,
      natCharsF_foldl n n 0 (by omega), readNatAux_stop rest _ h]
    simp

theorem except_bind_ok {α β : Type} (a : α) (f : α → Except PErr β) :
    (Except.ok a : Except PErr α).bind f = f a := rfl

theorem serL_length_pos (t : GNode) (idx : Nat) : 0 < (t.serL idx).length := by
  cases t <;> simp [GNode.serL]

theorem serKids_length_ge (cs : List GNode) : ∀ i, cs.length ≤ (serKids cs i).length := by
  induction cs with
  | nil => simp [serKids]
  | cons c cs2 ih =>
    intro i
    cases cs2 with
    | nil => simpa [serKids] using serL_length_pos c i
    | cons c2 cs3 =>
      simp only [serKids, List.length_append, List.length_cons]
      have h1 := serL_length_pos c i
      have h2 := ih (i + 1)
      simp only [List.length_cons] at h2 ⊢
      omega

theorem tileBody_ser (idx sz w : Nat) (rest : List Char) (h : noDigitHead rest = true) :
    tileBody (natChars idx ++ '|' :: (natChars sz ++ '|' :: (natChars w ++ rest))) =
      .ok (GNode.tile sz w, rest) := by
  unfold tileBody
  rw [readNatE_natChars idx _ (by rfl)]
  simp only [except_bind_ok]
  rw [show expectC '|' ('|' :: (natChars sz ++ '|' :: (natChars w ++ rest))) =
    .ok (natChars sz ++ '|' :: (natChars w ++ rest)) by simp [expectC]]
  simp only [except_bind_ok]
  rw [readNatE_natChars sz _ (by rfl)]
  simp only [except_bind_ok]
  rw [show expectC '|' ('|' :: (natChars w ++ rest)) = .ok (natChars w ++ rest) by
    simp [expectC]]
  simp only [except_bind_ok]
  rw [readNatE_natChars w rest h]
  simp only [except_bind_ok]

theorem contHead_ser (idx sz : Nat) (rest : List Char) :
    contHead (natChars idx ++ '|' :: (natChars sz ++ '[' :: rest)) = .ok (sz, rest) := by
  unfold contHead
  rw [readNatE_natChars idx _ (by rfl)]
  simp only [except_bind_ok]
  rw [show expectC '|' ('|' :: (natChars sz ++ '[' :: rest)) =
    .ok (natChars sz ++ '[' :: rest) by simp [expectC]]
  simp only [except_bind_ok]
  rw [readNatE_natChars sz _ (by rfl)]
  simp only [except_bind_ok]
  rw [show expectC '[' ('[' :: rest) = .ok rest by simp [expectC]]
  simp only [except_bind_ok]

theorem kidsFullKids_iff (cs : List GNode) :
    kidsFullKids cs = true ↔ ∀ c ∈ cs, kidsFullB c = true := by
  induction cs with
  | nil => simp [kidsFullKids]
  | cons c cs2 ih => simp [kidsFullKids, ih]

theorem kidsFullB_cont (ax : Axis) (sz : Nat) (cs : List GNode) :
    kidsFullB (GNode.cont ax sz cs) = true ↔
      cs ≠ [] ∧ ∀ c ∈ cs, kidsFullB c = true := by
  simp [kidsFullB, kidsFullKids_iff, List.isEmpty_iff]

theorem gdepth_le_kdepth (cs : List GNode) (c : GNode) (hc : c ∈ cs) :
    gdepth c ≤ kdepth cs := by
  induction cs with
  | nil => simp at hc
  | cons a l ih =>
    simp only [List.mem_cons] at hc
    simp only [kdepth]
    rcases hc with rfl | hc
    · omega
    · have := ih hc
      omega

mutual

theorem parse_serL (t : GNode) : ∀ (fuel idx : Nat) (rest : List Char),
    gdepth t ≤ fuel → kidsFullB t = true → noDigitHead rest = true →
    parseNodeF fuel (t.serL idx ++ rest) = .ok (t, rest) := by
  cases t with
  | tile sz w =>
    intro fuel idx rest hfuel hkf hnd
    cases fuel with
    | zero => simp [gdepth] at hfuel
    | succ f =>
      simp only [GNode.serL, List.cons_append, parseNodeF]
      rw [show (natChars idx ++ '|' :: natChars sz ++ '|' :: natChars w) ++ rest =
        natChars idx ++ '|' :: (natChars sz ++ '|' :: (natChars w ++ rest)) by simp]
      exact tileBody_ser idx sz w rest hnd
  | cont ax sz cs =>
    intro fuel idx rest hfuel hkf hnd
    cases fuel with
    | zero => simp [gdepth] at hfuel
    | succ f =>
      have hkfc := (kidsFullB_cont ax sz cs).mp hkf
      have hdep : kdepth cs ≤ f := by
        simp only [gdepth] at hfuel
        omega
      have hser := serKids_length_ge cs 0
      cases ax with
      | vertical =>
        rw [show GNode.serL (GNode.cont Axis.vertical sz cs) idx ++ rest =
          'c' :: (natChars idx ++ '|' :: (natChars sz ++ '[' ::
            (serKids cs 0 ++ ']' :: rest))) by simp [GNode.serL]]
        simp only [parseNodeF]
        rw [contHead_ser idx sz _]
        simp only [except_bind_ok]
        rw [parse_serKids cs f _ 0 rest hdep hkfc.1 hkfc.2
          (by simp only [List.length_append, List.length_cons]; omega)]
        simp only [except_bind_ok]
      | horizontal =>
        rw [show GNode.serL (GNode.cont Axis.horizontal sz cs) idx ++ rest =
          'r' :: (natChars idx ++ '|' :: (natChars sz ++ '[' ::
            (serKids cs 0 ++ ']' :: rest))) by simp [GNode.serL]]
        simp only [parseNodeF]
        rw [contHead_ser idx sz _]
        simp only [except_bind_ok]
        rw [parse_serKids cs f _ 0 rest hdep hkfc.1 hkfc.2
          (by simp only [List.length_append, List.length_cons]; omega)]
        simp only [except_bind_ok]

theorem parse_serKids (cs : List GNode) : ∀ (fuel k i : Nat) (rest : List Char),
    kdepth cs ≤ fuel → cs ≠ [] → (∀ c ∈ cs, kidsFullB c = true) → cs.length ≤ k →
    kidsLoop (parseNodeF fuel) k (serKids cs i ++ ']' :: rest) = .ok (cs, rest) := by
  cases cs with
  | nil =>
    intro fuel k i rest _ hne _ _
    exact absurd rfl hne
  | cons c cs2 =>
    intro fuel k i rest hdep hne hkf hk
    cases cs2 with
    | nil =>
      cases k with
      | zero => simp at hk
      | succ k0 =>
        simp only [serKids, kidsLoop]
        rw [parse_serL c fuel i (']' :: rest)
          (by have := gdepth_le_kdepth [c] c (by simp); omega)
          (hkf c (by simp)) rfl]
        simp only [except_bind_ok]
    | cons c2 cs3 =>
      cases k with
      | zero => simp at hk
      | succ k0 =>
        simp only [serKids, kidsLoop]
        rw [show (GNode.serL c i ++ ',' :: serKids (c2 :: cs3) (i + 1)) ++ ']' :: rest =
          GNode.serL c i ++ ',' :: (serKids (c2 :: cs3) (i + 1) ++ ']' :: rest) by simp]
        rw [parse_serL c fuel i (',' :: (serKids (c2 :: cs3) (i + 1) ++ ']' :: rest))
          (by have := gdepth_le_kdepth (c :: c2 :: cs3) c (by simp); omega)
          (hkf c (by simp)) rfl]
        simp only [except_bind_ok]
        rw [parse_serKids (c2 :: cs3) fuel k0 (i + 1) rest
          (by have h1 : kdepth (c2 :: cs3) ≤ kdepth (c :: c2 :: cs3) := by
                simp only [kdepth]; omega
              omega)
          (by simp) (fun x hx => hkf x (by simp [hx]))
          (by simp only [List.length_cons] at hk ⊢; omega)]
        simp only [except_bind_ok]

end

mutual

theorem gdepth_le_serL (t : GNode) : ∀ idx : Nat, gdepth t ≤ (GNode.serL t idx).length := by
  cases t with
  | tile sz w =>
    intro idx
    simp [gdepth, GNode.serL]
  | cont ax sz cs =>
    intro idx
    have hk := kdepth_le_serKids cs 0
    simp only [gdepth, GNode.serL, List.length_cons, List.length_append]
    omega

theorem kdepth_le_serKids (cs : List GNode) : ∀ i : Nat, kdepth cs ≤ (serKids cs i).length := by
  cases cs with
  | nil => intro i; simp [kdepth, serKids]
  | cons c cs2 =>
    intro i
    cases cs2 with
    | nil =>
      have := gdepth_le_serL c i
      simp only [kdepth, serKids]
      omega
    | cons c2 cs3 =>
      have h1 := gdepth_le_serL c i
      have h2 := kdepth_le_serKids (c2 :: cs3) (i + 1)
      rw [show kdepth (c :: c2 :: cs3) = max (gdepth c) (kdepth (c2 :: cs3)) from rfl,
        show serKids (c :: c2 :: cs3) i =
          GNode.serL c i ++ ',' :: serKids (c2 :: cs3) (i + 1) from rfl]
      simp only [List.length_append, List.length_cons]
      omega

end

theorem fromChars_serL (t : GNode) (h : wellFormedB t = true) :
    fromChars (GNode.serL t 0) = .ok t := by
  have hkf : kidsFullB t = true := by
    simp only [wellFormedB, Bool.and_eq_true] at h
    exact h.1.1.2
  have hdep : gdepth t ≤ (GNode.serL t 0).length + 1 := by
    have := gdepth_le_serL t 0
    omega
  have hp := parse_serL t ((GNode.serL t 0).length + 1) 0 [] hdep hkf rfl
  rw [List.append_nil] at hp
  simp only [fromChars, hp, except_bind_ok, h, if_pos]

/-- C2: the codec round-trip is the identity: parsing the serialisation of
any well-formed tree yields exactly that tree back (from_string after
to_string is the identity on grids — our model renumbers identifiers the
same way, so equality is on the nose), and at grid level from_string of a
rendered grid succeeds, restores the root tree, and re-renders to the very
same string (to_string after from_string is the identity on produced
strings). -/
theorem nog_C2_codec_roundtrip (g h : TileGrid) (t : GNode)
    (hroot : h.root = some t) (hwf : wellFormedB t = true) :
    fromChars (serializeTree t).data = .ok t ∧
    (g.fromString h.render).1.root = h.root ∧
    (g.fromString h.render).2 = .ok () ∧
    (g.fromString h.render).1.render = h.render := by
  have hfc : fromChars (GNode.serL t 0) = .ok t := fromChars_serL t hwf
  have hrender : h.render = String.mk (GNode.serL t 0) := by
    rw [TileGrid.render, hroot]
  have hdata : (String.mk (GNode.serL t 0)).data = GNode.serL t 0 := rfl
  rw [hrender]
  refine ⟨?_, ?_, ?_, ?_⟩
  · rw [show (serializeTree t).data = GNode.serL t 0 from rfl]
    exact hfc
  · simp only [TileGrid.fromString, hdata, hfc]
    exact hroot.symm
  · simp only [TileGrid.fromString, hdata, hfc]
  · simp only [TileGrid.fromString, hdata, hfc]
    rw [TileGrid.render]

/-- Witness for C2: a concrete two-tile column grid round-trips through the
codec. -/
theorem nog_C2_codec_roundtrip_witness :
    ({ emptyGrid with
        root := some (GNode.cont Axis.vertical 120 [GNode.tile 60 1, GNode.tile 60 2]),
        focusPath := some [0] } : TileGrid).root =
      some (GNode.cont Axis.vertical 120 [GNode.tile 60 1, GNode.tile 60 2]) ∧
    wellFormedB (GNode.cont Axis.vertical 120 [GNode.tile 60 1, GNode.tile 60 2]) = true ∧
    fromChars (serializeTree
      (GNode.cont Axis.vertical 120 [GNode.tile 60 1, GNode.tile 60 2])).data =
      .ok (GNode.cont Axis.vertical 120 [GNode.tile 60 1, GNode.tile 60 2]) ∧
    (emptyGrid.fromString
      ({ emptyGrid with
          root := some (GNode.cont Axis.vertical 120 [GNode.tile 60 1, GNode.tile 60 2]),
          focusPath := some [0] } : TileGrid).render).2 = .ok () := by
  have hmain := nog_C2_codec_roundtrip emptyGrid
    { emptyGrid with
        root := some (GNode.cont Axis.vertical 120 [GNode.tile 60 1, GNode.tile 60 2]),
        focusPath := some [0] }
    (GNode.cont Axis.vertical 120 [GNode.tile 60 1, GNode.tile 60 2]) rfl (by decide)
  exact ⟨rfl, by decide, hmain.1, hmain.2.2.1⟩

/-- C8: on a malformed layout string, from_string returns a ParseError
carrying an offset and a reason, and the engine state is exactly what it
was before the call: the grid component of the result is the unchanged
input grid (parsing works on a staging tree and commits only on success). -/
theorem nog_C8_parse_error_leaves_state (g : TileGrid) (s : String) (e : PErr)
    (h : fromChars s.data = .error e) :
    (g.fromString s).1 = g ∧
    (g.fromString s).2 = .error ⟨s.length - e.rem, e.reason⟩ := by
  refine ⟨?_, ?_⟩ <;> simp only [TileGrid.fromString, h]

/-- Witness for C8: parsing the malformed string xyz into a two-tile grid
fails with offset 0 and reason expected a node, and leaves the grid as it
was. -/
theorem nog_C8_parse_error_leaves_state_witness :
    fromChars ("xyz" : String).data = .error ⟨3, "expected a node"⟩ ∧
    ((runScript [ScriptAct.p, ScriptAct.p]).fromString "xyz").1 =
      runScript [ScriptAct.p, ScriptAct.p] ∧
    ((runScript [ScriptAct.p, ScriptAct.p]).fromString "xyz").2 =
      .error ⟨("xyz" : String).length - 3, "expected a node"⟩ :=
  ⟨rfl,
   (nog_C8_parse_error_leaves_state (runScript [ScriptAct.p, ScriptAct.p]) "xyz"
     ⟨3, "expected a node"⟩ rfl).1,
   (nog_C8_parse_error_leaves_state (runScript [ScriptAct.p, ScriptAct.p]) "xyz"
     ⟨3, "expected a node"⟩ rfl).2⟩

/-- C7 counterexample: on the grid built by three pushes, one focus Left and
setting the push direction to Left, the focused window is 2; pushing window
4 and popping it restores the tree exactly, but the focus lands on window 1,
not on the previously focused window 2 — the previous focused Tile is not
restored when the push direction is a before-direction. -/
theorem nog_C7_push_pop_counterexample :
    (runScript [ScriptAct.p, ScriptAct.p, ScriptAct.p, ScriptAct.fl,
        ScriptAct.dirl]).focusedWindow = some 2 ∧
    (((runScript [ScriptAct.p, ScriptAct.p, ScriptAct.p, ScriptAct.fl,
        ScriptAct.dirl]).push 4).pop).root =
      (runScript [ScriptAct.p, ScriptAct.p, ScriptAct.p, ScriptAct.fl,
        ScriptAct.dirl]).root ∧
    (((runScript [ScriptAct.p, ScriptAct.p, ScriptAct.p, ScriptAct.fl,
        ScriptAct.dirl]).push 4).pop).focusedWindow = some 1 :=
  ⟨rfl, rfl, rfl⟩

theorem stripKids_eq_map (cs : List GNode) : stripKids cs = cs.map stripSizes := by
  induction cs with
  | nil => rfl
  | cons c cs2 ih => simp [stripKids, ih]

theorem stripSizes_withSize (t : GNode) (n : Nat) :
    stripSizes (GNode.withSize t n) = stripSizes t := by
  cases t <;> rfl

theorem stripKids_zipWith (cs : List GNode) : ∀ ys : List Nat,
    cs.length ≤ ys.length →
    stripKids (List.zipWith GNode.withSize cs ys) = stripKids cs := by
  induction cs with
  | nil => intro ys h; rfl
  | cons c cs2 ih =>
    intro ys h
    cases ys with
    | nil => simp at h
    | cons y ys2 =>
      simp only [List.zipWith, stripKids, stripSizes_withSize]
      rw [ih ys2 (by simp at h; omega)]

theorem stripKids_distribute (cs : List GNode) :
    stripKids (distribute cs) = stripKids cs := by
  rw [distribute, stripKids_zipWith cs _ (by rw [shareSizes_length])]

theorem eraseIdx_zipWith (cs : List GNode) : ∀ (ys : List Nat) (i : Nat),
    (List.zipWith GNode.withSize cs ys).eraseIdx i =
      List.zipWith GNode.withSize (cs.eraseIdx i) (ys.eraseIdx i) := by
  induction cs with
  | nil => intro ys i; simp
  | cons c cs2 ih =>
    intro ys i
    cases ys with
    | nil => simp
    | cons y ys2 =>
      cases i with
      | zero => simp [List.eraseIdx]
      | succ j =>
        simp only [List.zipWith, List.eraseIdx]
        rw [ih ys2 j]

theorem set_getq_self {α : Type} (cs : List α) : ∀ (i : Nat) (c : α),
    cs[i]? = some c → cs.set i c = cs := by
  induction cs with
  | nil => intro i c h; simp at h
  | cons a l ih =>
    intro i c h
    cases i with
    | zero =>
      simp only [List.getElem?_cons_zero, Option.some.injEq] at h
      simp [List.set, h]
    | succ j =>
      simp only [List.getElem?_cons_succ] at h
      simp [List.set, ih j c h]

theorem lt_of_getq (cs : List GNode) (i : Nat) (c : GNode)
    (h : cs[i]? = some c) : i < cs.length :=
  (List.getElem?_eq_some.mp h).1

theorem stripKids_set (cs : List GNode) (i : Nat) (c c2 : GNode)
    (h : cs[i]? = some c) (h2 : stripSizes c2 = stripSizes c) :
    stripKids (cs.set i c2) = stripKids cs := by
  rw [stripKids_eq_map, stripKids_eq_map, List.map_set]
  rw [h2]
  apply set_getq_self
  rw [List.getElem?_map, h]
  rfl

theorem getAt_cons (ax : Axis) (sz : Nat) (cs : List GNode) (i : Nat)
    (c : GNode) (p : List Nat) (h : cs[i]? = some c) :
    getAt (GNode.cont ax sz cs) (i :: p) = getAt c p := by
  simp only [getAt, h]

theorem fixFocus_cons (ax : Axis) (sz : Nat) (cs : List GNode) (i : Nat)
    (c : GNode) (p : List Nat) (h : cs[i]? = some c) :
    fixFocus (GNode.cont ax sz cs) (i :: p) = i :: fixFocus c p := by
  simp only [fixFocus, h]

theorem noNestKids_iff (ax : Axis) (cs : List GNode) :
    noNestKids ax cs = true ↔
      ∀ c ∈ cs, notSameAxis ax c = true ∧ noNestB c = true := by
  induction cs with
  | nil => simp [noNestKids]
  | cons c cs2 ih => simp [noNestKids, ih, and_assoc]

theorem getAt_strip (p : List Nat) : ∀ t : GNode,
    getAt (stripSizes t) p = (getAt t p).map stripSizes := by
  induction p with
  | nil => intro t; cases t <;> rfl
  | cons i q ih =>
    intro t
    cases t with
    | tile s w => rfl
    | cont ax sz cs =>
      simp only [stripSizes, getAt, stripKids_eq_map, List.getElem?_map]
      cases h : cs[i]? with
      | none => rfl
      | some c => simp only [Option.map_some']; exact ih c

theorem popFocus_cons (axO axN : Axis) (szO szN : Nat) (csO csN : List GNode)
    (i : Nat) (cO cN : GNode) (p : List Nat) (hp : p ≠ [])
    (hO : csO[i]? = some cO) (hN : csN[i]? = some cN) :
    popFocus (GNode.cont axO szO csO) (GNode.cont axN szN csN) (i :: p) =
      i :: popFocus cO cN p := by
  obtain ⟨a, t, rfl⟩ := List.exists_cons_of_ne_nil hp
  simp only [popFocus,
    List.dropLast_cons_of_ne_nil (by simp : (a :: t) ≠ []),
    List.getLast?_cons_cons]
  rw [getAt_cons axO szO csO i cO ((a :: t).dropLast) hO]
  cases h2 : getAt cO ((a :: t).dropLast) with
  | none =>
    exact fixFocus_cons axN szN csN i cN ((a :: t).dropLast) hN
  | some c =>
    cases c with
    | tile s w =>
      exact fixFocus_cons axN szN csN i cN ((a :: t).dropLast) hN
    | cont cax csz ccs =>
      dsimp only
      by_cases h3 : 3 ≤ ccs.length
      · simp only [if_pos h3]
        rw [List.cons_append,
          getAt_cons axN szN csN i cN ((a :: t).dropLast ++
            [if (a :: t).getLast?.getD 0 = 0 then 0
             else (a :: t).getLast?.getD 0 - 1]) hN]
        cases h4 : getAt cN ((a :: t).dropLast ++
            [if (a :: t).getLast?.getD 0 = 0 then 0
             else (a :: t).getLast?.getD 0 - 1]) with
        | none => exact fixFocus_cons axN szN csN i cN ((a :: t).dropLast) hN
        | some c2 => simp
      · simp only [if_neg h3]
        exact fixFocus_cons axN szN csN i cN ((a :: t).dropLast) hN

theorem zip_getq_tile (cs : List GNode) (ys : List Nat) (i s w : Nat)
    (h : cs[i]? = some (GNode.tile s w)) (hy : i < ys.length) :
    ∃ z, (List.zipWith GNode.withSize cs ys)[i]? = some (GNode.tile z w) := by
  rw [List.getElem?_zipWith, h, List.getElem?_eq_getElem hy]
  exact ⟨ys[i], rfl⟩

theorem distribute_getq_tile (cs : List GNode) (i s w : Nat)
    (h : cs[i]? = some (GNode.tile s w)) :
    ∃ z, (distribute cs)[i]? = some (GNode.tile z w) := by
  have hi : i < cs.length := lt_of_getq cs i _ h
  exact zip_getq_tile cs (shareSizes cs.length) i s w h
    (by rw [shareSizes_length]; exact hi)

theorem popFocus_sibling (axO axN : Axis) (szO szN : Nat) (ds es : List GNode)
    (i z w : Nat) (h3 : 3 ≤ ds.length) (hes : es[i]? = some (GNode.tile z w)) :
    popFocus (GNode.cont axO szO ds) (GNode.cont axN szN es) [i + 1] = [i] := by
  simp only [popFocus]
  rw [show ([i + 1] : List Nat).dropLast = [] from rfl,
    show ([i + 1] : List Nat).getLast? = some (i + 1) from rfl]
  rw [show getAt (GNode.cont axO szO ds) [] = some (GNode.cont axO szO ds) from rfl]
  dsimp only
  rw [if_pos h3]
  simp only [Option.getD_some, Nat.succ_ne_zero, if_neg, if_false,
    Nat.add_sub_cancel]
  rw [List.nil_append, getAt_single axN szN es i, hes]
  rfl


theorem distribute_pair (t1 t2 : GNode) :
    distribute [t1, t2] = [t1.withSize 60, t2.withSize 60] := by
  simp [distribute, shareSizes]

theorem removeAt_cons (cax : Axis) (sz : Nat) (cs : List GNode) (i : Nat)
    (c : GNode) (p : List Nat) (hp : p ≠ []) (h : cs[i]? = some c) :
    removeAt (GNode.cont cax sz cs) (i :: p) =
      match removeAt c p with
      | GNode.cont cax2 sz2 gs =>
        if cax2 = cax then GNode.cont cax sz (spliceAt cs i (rescale gs sz2))
        else GNode.cont cax sz (cs.set i (GNode.cont cax2 sz2 gs))
      | c2 => GNode.cont cax sz (cs.set i c2) := by
  obtain ⟨a, t, rfl⟩ := List.exists_cons_of_ne_nil hp
  simp only [removeAt, h]

theorem pushPop_restore (fp : List Nat) : ∀ (r : GNode) (ax : Axis) (s w w' : Nat),
    getAt r fp = some (GNode.tile s w) → minChB r = true → noNestB r = true →
    pushPath r fp ax false ≠ [] ∧
    stripSizes (removeAt (pushTree r fp ax false (GNode.tile 0 w'))
      (pushPath r fp ax false)) = stripSizes r ∧
    popFocus (pushTree r fp ax false (GNode.tile 0 w'))
      (removeAt (pushTree r fp ax false (GNode.tile 0 w'))
        (pushPath r fp ax false)) (pushPath r fp ax false) = fp := by
  induction fp with
  | nil =>
    intro r ax s w w' hfoc hmin hnn
    have hr : r = GNode.tile s w := by
      have h0 : some r = some (GNode.tile s w) := by
        rw [← hfoc]
        cases r <;> rfl
      exact Option.some.inj h0
    subst hr
    have hw : pushTree (GNode.tile s w) [] ax false (GNode.tile 0 w') =
        GNode.cont ax s [GNode.tile 60 w, GNode.tile 60 w'] := by
      show wrapTree (GNode.tile s w) ax false (GNode.tile 0 w') = _
      rw [wrapTree]
      rw [show (if (false : Bool) then [GNode.tile 0 w', GNode.tile s w]
        else [GNode.tile s w, GNode.tile 0 w']) =
        [GNode.tile s w, GNode.tile 0 w'] from rfl]
      rw [distribute_pair]
      rfl
    have hq : pushPath (GNode.tile s w) [] ax false = [1] := rfl
    rw [hq, hw]
    refine ⟨by simp, ?_, ?_⟩
    · rw [show removeAt (GNode.cont ax s [GNode.tile 60 w, GNode.tile 60 w']) [1] =
        GNode.tile s w from rfl]
    · rw [show removeAt (GNode.cont ax s [GNode.tile 60 w, GNode.tile 60 w']) [1] =
        GNode.tile s w from rfl]
      rfl
  | cons i rest ih =>
    intro r ax s w w' hfoc hmin hnn
    cases r with
    | tile s0 w0 => exact Option.noConfusion hfoc
    | cont cax sz cs =>
      cases hc : cs[i]? with
      | none => simp [getAt, hc] at hfoc
      | some c =>
        rw [getAt_cons cax sz cs i c rest hc] at hfoc
        have hilt := lt_of_getq cs i c hc
        have hmem := getElem?_mem_list cs i c hc
        have hmin2 : 2 ≤ cs.length ∧ minChKids cs = true := by
          simpa [minChB] using hmin
        have hminc : minChB c = true := (minChKids_iff cs).mp hmin2.2 c hmem
        have hnn2 : noNestKids cax cs = true := by simpa [noNestB] using hnn
        have hnnc := (noNestKids_iff cax cs).mp hnn2 c hmem
        cases rest with
        | nil =>
          have hct : c = GNode.tile s w := by
            have h0 : some c = some (GNode.tile s w) := by
              rw [← hfoc]
              cases c <;> rfl
            exact Option.some.inj h0
          subst hct
          by_cases hax : cax = ax
          · subst hax
            have hpt : pushTree (GNode.cont cax sz cs) [i] cax false (GNode.tile 0 w') =
                GNode.cont cax sz (distribute
                  (cs.insertIdx (i + 1) (GNode.tile 0 w'))) := by
              simp [pushTree]
            have hpp : pushPath (GNode.cont cax sz cs) [i] cax false = [i + 1] := by
              simp [pushPath]
            rw [hpt, hpp]
            have hlen_ins : (cs.insertIdx (i + 1) (GNode.tile 0 w')).length =
                cs.length + 1 :=
              List.length_insertIdx _ _ (by omega)
            have hdslen : (distribute (cs.insertIdx (i + 1) (GNode.tile 0 w'))).length =
                cs.length + 1 := by
              rw [distribute_length, hlen_ins]
            have hys : ((shareSizes (cs.length + 1)).eraseIdx (i + 1)).length =
                cs.length := by
              rw [List.length_eraseIdx, shareSizes_length,
                if_pos (show i + 1 < cs.length + 1 by omega)]
              omega
            have herase : (distribute (cs.insertIdx (i + 1)
                  (GNode.tile 0 w'))).eraseIdx (i + 1) =
                List.zipWith GNode.withSize cs
                  ((shareSizes (cs.length + 1)).eraseIdx (i + 1)) := by
              rw [distribute, hlen_ins, eraseIdx_zipWith, List.eraseIdx_insertIdx]
            have hrm : removeAt (GNode.cont cax sz (distribute
                  (cs.insertIdx (i + 1) (GNode.tile 0 w')))) [i + 1] =
                GNode.cont cax sz (distribute (List.zipWith GNode.withSize cs
                  ((shareSizes (cs.length + 1)).eraseIdx (i + 1)))) := by
              simp only [removeAt]
              rw [if_pos (show i + 1 < (distribute (cs.insertIdx (i + 1)
                  (GNode.tile 0 w'))).length by rw [hdslen]; omega)]
              rw [herase]
              cases he : List.zipWith GNode.withSize cs
                  ((shareSizes (cs.length + 1)).eraseIdx (i + 1)) with
              | nil =>
                exfalso
                have hl := congrArg List.length he
                rw [List.length_zipWith, hys, Nat.min_self] at hl
                simp only [List.length_nil] at hl
                omega
              | cons x xs =>
                cases xs with
                | nil =>
                  exfalso
                  have hl := congrArg List.length he
                  rw [List.length_zipWith, hys, Nat.min_self] at hl
                  simp only [List.length_cons, List.length_nil] at hl
                  omega
                | cons y zs => rfl
            rw [hrm]
            refine ⟨by simp, ?_, ?_⟩
            · simp only [stripSizes, stripKids_distribute]
              rw [stripKids_zipWith cs _ (by rw [hys])]
            · obtain ⟨z, hz⟩ := zip_getq_tile cs
                ((shareSizes (cs.length + 1)).eraseIdx (i + 1)) i s w hc
                (by rw [hys]; exact hilt)
              obtain ⟨z2, hz2⟩ := distribute_getq_tile _ i z w hz
              exact popFocus_sibling cax cax sz sz _ _ i z2 w
                (by rw [hdslen]; omega) hz2
          · have hwrap : wrapTree (GNode.tile s w) ax false (GNode.tile 0 w') =
                GNode.cont ax s [GNode.tile 60 w, GNode.tile 60 w'] := by
              rw [wrapTree]
              rw [show (if (false : Bool) then [GNode.tile 0 w', GNode.tile s w]
                else [GNode.tile s w, GNode.tile 0 w']) =
                [GNode.tile s w, GNode.tile 0 w'] from rfl]
              rw [distribute_pair]
              rfl
            have hpt : pushTree (GNode.cont cax sz cs) [i] ax false (GNode.tile 0 w') =
                GNode.cont cax sz (cs.set i
                  (GNode.cont ax s [GNode.tile 60 w, GNode.tile 60 w'])) := by
              simp only [pushTree, if_neg hax, hc, hwrap]
            have hpp : pushPath (GNode.cont cax sz cs) [i] ax false = [i, 1] := by
              simp only [pushPath, if_neg hax, hc]
              rfl
            rw [hpt, hpp]
            have hset : (cs.set i
                  (GNode.cont ax s [GNode.tile 60 w, GNode.tile 60 w']))[i]? =
                some (GNode.cont ax s [GNode.tile 60 w, GNode.tile 60 w']) :=
              List.getElem?_set_self hilt
            have hrm : removeAt (GNode.cont cax sz (cs.set i
                  (GNode.cont ax s [GNode.tile 60 w, GNode.tile 60 w']))) [i, 1] =
                GNode.cont cax sz cs := by
              rw [removeAt_cons cax sz _ i _ [1] (by simp) hset]
              rw [show removeAt (GNode.cont ax s
                  [GNode.tile 60 w, GNode.tile 60 w']) [1] =
                GNode.tile s w from rfl]
              dsimp only
              rw [List.set_set, set_getq_self cs i (GNode.tile s w) hc]
            rw [hrm]
            refine ⟨by simp, rfl, ?_⟩
            rw [popFocus_cons cax cax sz sz _ cs i
              (GNode.cont ax s [GNode.tile 60 w, GNode.tile 60 w'])
              (GNode.tile s w) [1] (by simp) hset hc]
            rfl
        | cons j q =>
          cases c with
          | tile s1 w1 => exact Option.noConfusion hfoc
          | cont cax2 sz2 gs =>
            have hax2 : cax2 ≠ cax := by
              have h1 := hnnc.1
              simpa [notSameAxis] using h1
            obtain ⟨hne', hstrip, hfocus⟩ :=
              ih (GNode.cont cax2 sz2 gs) ax s w w' hfoc hminc hnnc.2
            obtain ⟨a, t, hat⟩ := List.exists_cons_of_ne_nil hne'
            have hpt : pushTree (GNode.cont cax sz cs) (i :: j :: q) ax false
                  (GNode.tile 0 w') =
                GNode.cont cax sz (cs.set i (pushTree (GNode.cont cax2 sz2 gs)
                  (j :: q) ax false (GNode.tile 0 w'))) := by
              simp only [pushTree, hc]
            have hpp : pushPath (GNode.cont cax sz cs) (i :: j :: q) ax false =
                i :: pushPath (GNode.cont cax2 sz2 gs) (j :: q) ax false := by
              simp only [pushPath, hc]
            rw [hpt, hpp]
            have hset : (cs.set i (pushTree (GNode.cont cax2 sz2 gs)
                  (j :: q) ax false (GNode.tile 0 w')))[i]? =
                some (pushTree (GNode.cont cax2 sz2 gs)
                  (j :: q) ax false (GNode.tile 0 w')) :=
              List.getElem?_set_self hilt
            have hrm : removeAt (GNode.cont cax sz (cs.set i
                  (pushTree (GNode.cont cax2 sz2 gs) (j :: q) ax false
                    (GNode.tile 0 w'))))
                  (i :: pushPath (GNode.cont cax2 sz2 gs) (j :: q) ax false) =
                GNode.cont cax sz (cs.set i
                  (removeAt (pushTree (GNode.cont cax2 sz2 gs) (j :: q) ax false
                    (GNode.tile 0 w'))
                  (pushPath (GNode.cont cax2 sz2 gs) (j :: q) ax false))) := by
              rw [removeAt_cons cax sz _ i _ _ hne' hset]
              cases hc2 : removeAt (pushTree (GNode.cont cax2 sz2 gs)
                  (j :: q) ax false (GNode.tile 0 w'))
                  (pushPath (GNode.cont cax2 sz2 gs) (j :: q) ax false) with
              | tile s3 w3 =>
                rw [hc2] at hstrip
                simp [stripSizes] at hstrip
              | cont cax3 sz3 gs3 =>
                rw [hc2] at hstrip
                simp only [stripSizes, GNode.cont.injEq] at hstrip
                dsimp only
                rw [if_neg (show ¬ cax3 = cax by rw [hstrip.1]; exact hax2)]
                rw [List.set_set]
            rw [hrm]
            refine ⟨by simp, ?_, ?_⟩
            · simp only [stripSizes]
              rw [stripKids_set cs i (GNode.cont cax2 sz2 gs) _ hc hstrip]
            · rw [popFocus_cons cax cax sz sz _ _ i _ _ _ hne' hset
                (List.getElem?_set_self hilt)]
              rw [hfocus]

/-- C7 (amended): when the push direction is an after-direction (right or
down), push of a window followed by pop of the just-pushed (and therefore
focused) tile restores the previous tree up to the redistributed sibling
sizes (variant tags, child order and windows are exactly restored), restores
the previous focus path, and focuses the previously focused window again;
the grid must have a root with a valid tile focus, containers of at least
two children and alternating axes, as in every engine-built tree. -/
theorem nog_C7_push_pop_restores (g : TileGrid) (r : GNode) (fp : List Nat)
    (s w w' : Nat)
    (hroot : g.root = some r) (hfp : g.focusPath = some fp)
    (hfoc : getAt r fp = some (GNode.tile s w))
    (hmin : minChB r = true) (hnn : noNestB r = true)
    (hdir : g.nextDirection.isBefore = false) :
    ∃ r2, ((g.push w').pop).root = some r2 ∧
      stripSizes r2 = stripSizes r ∧
      ((g.push w').pop).focusPath = some fp ∧
      ∃ s2, getAt r2 fp = some (GNode.tile s2 w) := by
  obtain ⟨hne, hstrip, hfocus⟩ := pushPop_restore fp r g.nextAxis s w w' hfoc hmin hnn
  obtain ⟨a, t, hat⟩ := List.exists_cons_of_ne_nil hne
  have hpush : g.push w' = { g with
      root := some (pushTree r fp g.nextAxis false (GNode.tile 0 w')),
      focusPath := some (pushPath r fp g.nextAxis false) } := by
    simp only [TileGrid.push, hroot, hfp, hdir]
  have hpop : (g.push w').pop = { g with
      root := some (removeAt (pushTree r fp g.nextAxis false (GNode.tile 0 w'))
        (pushPath r fp g.nextAxis false)),
      focusPath := some (popFocus (pushTree r fp g.nextAxis false (GNode.tile 0 w'))
        (removeAt (pushTree r fp g.nextAxis false (GNode.tile 0 w'))
          (pushPath r fp g.nextAxis false))
        (pushPath r fp g.nextAxis false)) } := by
    rw [hpush]
    simp only [TileGrid.pop]
    rw [hat]
  rw [hpop]
  refine ⟨removeAt (pushTree r fp g.nextAxis false (GNode.tile 0 w'))
      (pushPath r fp g.nextAxis false), rfl, hstrip, ?_, ?_⟩
  · show some (popFocus (pushTree r fp g.nextAxis false (GNode.tile 0 w'))
      (removeAt (pushTree r fp g.nextAxis false (GNode.tile 0 w'))
        (pushPath r fp g.nextAxis false))
      (pushPath r fp g.nextAxis false)) = some fp
    rw [hfocus]
  · have hg : getAt (stripSizes (removeAt
        (pushTree r fp g.nextAxis false (GNode.tile 0 w'))
        (pushPath r fp g.nextAxis false))) fp = some (GNode.tile 0 w) := by
      rw [hstrip, getAt_strip, hfoc]
      rfl
    rw [getAt_strip] at hg
    cases hx : getAt (removeAt (pushTree r fp g.nextAxis false (GNode.tile 0 w'))
        (pushPath r fp g.nextAxis false)) fp with
    | none => rw [hx] at hg; exact Option.noConfusion hg
    | some x =>
      rw [hx] at hg
      cases x with
      | tile s2 w2 =>
        simp only [Option.map_some', stripSizes, Option.some.injEq,
          GNode.tile.injEq] at hg
        exact ⟨s2, by rw [hg.2]⟩
      | cont ax2 sz2 gs2 => simp [stripSizes] at hg

/-- Witness for the amended C7 on a concrete two-tile column grid: pushing
window 3 and popping it restores the structure, the focus path and the
focused window 1. -/
theorem nog_C7_push_pop_restores_witness :
    ∃ r2, ((c7WitnessGrid.push 3).pop).root = some r2 ∧
      stripSizes r2 = stripSizes (GNode.cont Axis.vertical 120
        [GNode.tile 60 1, GNode.tile 60 2]) ∧
      ((c7WitnessGrid.push 3).pop).focusPath = some [0] ∧
      ∃ s2, getAt r2 [0] = some (GNode.tile s2 1) :=
  nog_C7_push_pop_restores c7WitnessGrid
    (GNode.cont Axis.vertical 120 [GNode.tile 60 1, GNode.tile 60 2])
    [0] 60 1 3 rfl rfl rfl (by decide) (by decide) rfl

theorem sum_map_div_le (l : List Nat) (d : Nat) :
    (l.map (fun a => a / d)).sum ≤ l.sum / d := by
  induction l with
  | nil => simp
  | cons a l2 ih =>
    simp only [List.map_cons, List.sum_cons]
    calc a / d + (l2.map (fun a => a / d)).sum ≤ a / d + l2.sum / d := by omega
    _ ≤ (a + l2.sum) / d := Nat.add_div_le_add_div a l2.sum d

theorem sliceOffset_le (cs : List GNode) (i w : Nat)
    (hsum : sumSizes cs = 120) : sliceOffset cs i w ≤ w := by
  have h1 : sliceOffset cs i w ≤
      ((cs.map (fun c => w * c.size)).map (fun a => a / 120)).sum := by
    rw [sliceOffset, List.map_take, List.map_map]
    have h2 := List.sum_take_add_sum_drop
      (List.map ((fun a => a / 120) ∘ (fun c => w * c.size)) cs) i
    have h3 : List.take i (List.map (fun c => w * c.size / 120) cs) =
        List.take i (List.map ((fun a => a / 120) ∘ (fun c => w * c.size)) cs) := rfl
    rw [h3]
    omega
  have h4 : ((cs.map (fun c => w * c.size)).map (fun a => a / 120)).sum ≤
      (cs.map (fun c => w * c.size)).sum / 120 :=
    sum_map_div_le _ 120
  have h5 : (cs.map (fun c => w * c.size)).sum = w * 120 := by
    rw [List.sum_map_mul_left, ← sumSizes, hsum]
  omega

theorem sliceOffset_succ (cs : List GNode) (i w : Nat) (c : GNode)
    (hc : cs[i]? = some c) :
    sliceOffset cs (i + 1) w = sliceOffset cs i w + w * c.size / 120 := by
  simp only [sliceOffset, List.take_succ, hc, Option.toList_some, List.map_append,
    List.sum_append, List.map_cons, List.map_nil, List.sum_cons, List.sum_nil]
  omega

theorem xLeftAt_ge (p : List Nat) : ∀ (t : GNode) (x w : Nat),
    x ≤ xLeftAt t p x w := by
  induction p with
  | nil => intro t x w; cases t <;> simp [xLeftAt]
  | cons i rest ih =>
    intro t x w
    cases t with
    | tile s v => simp [xLeftAt]
    | cont cax sz cs =>
      simp only [xLeftAt]
      cases hc : cs[i]? with
      | none => simp
      | some c =>
        dsimp only
        by_cases hv : cax = Axis.vertical
        · rw [if_pos hv]
          have := ih c (x + sliceOffset cs i w) (w * c.size / 120)
          omega
        · rw [if_neg hv]
          exact ih c x w

theorem xLeftAt_le (p : List Nat) : ∀ (t : GNode) (x w : Nat),
    sumOkB t = true → xLeftAt t p x w ≤ x + w := by
  induction p with
  | nil => intro t x w _; cases t <;> simp [xLeftAt]
  | cons i rest ih =>
    intro t x w hsum
    cases t with
    | tile s v => simp [xLeftAt]
    | cont cax sz cs =>
      obtain ⟨hs, hkids⟩ := (sumOkB_cont cax sz cs).mp hsum
      simp only [xLeftAt]
      cases hc : cs[i]? with
      | none => simp
      | some c =>
        have hcs : sumOkB c = true := hkids c (getElem?_mem_list cs i c hc)
        dsimp only
        by_cases hv : cax = Axis.vertical
        · rw [if_pos hv]
          have h1 := ih c (x + sliceOffset cs i w) (w * c.size / 120) hcs
          have h2 : sliceOffset cs (i + 1) w =
              sliceOffset cs i w + w * c.size / 120 :=
            sliceOffset_succ cs i w c hc
          have h3 : sliceOffset cs (i + 1) w ≤ w := sliceOffset_le cs (i + 1) w hs
          omega
        · rw [if_neg hv]
          exact ih c x w hcs

theorem focusFind_cons (cax : Axis) (sz : Nat) (cs : List GNode) (i : Nat)
    (rest : List Nat) (d : Dir) :
    focusFind (GNode.cont cax sz cs) (i :: rest) d =
      match cs[i]? with
      | none => none
      | some c =>
        match focusFind c rest d with
        | some sub => some (i :: sub)
        | none =>
          if cax = d.axis then
            if d.isBefore then
              match i, cs[i - 1]? with
              | ii + 1, some s => some (ii :: descendPath s d)
              | _, _ => none
            else
              match cs[i + 1]? with
              | some s => some ((i + 1) :: descendPath s d)
              | none => none
          else none := rfl

theorem focusFind_left_le (p : List Nat) : ∀ (t : GNode) (p2 : List Nat) (x w : Nat),
    sumOkB t = true → focusFind t p Dir.left = some p2 →
    xLeftAt t p2 x w ≤ xLeftAt t p x w := by
  induction p with
  | nil =>
    intro t p2 x w _ hff
    cases t <;> exact Option.noConfusion hff
  | cons i rest ih =>
    intro t p2 x w hsum hff
    cases t with
    | tile s v => exact Option.noConfusion hff
    | cont cax sz cs =>
      obtain ⟨hs, hkids⟩ := (sumOkB_cont cax sz cs).mp hsum
      rw [focusFind_cons] at hff
      cases hc : cs[i]? with
      | none =>
        rw [hc] at hff
        exact Option.noConfusion hff
      | some c =>
        rw [hc] at hff
        dsimp only at hff
        have hcs : sumOkB c = true := hkids c (getElem?_mem_list cs i c hc)
        cases hsub : focusFind c rest Dir.left with
        | some sub =>
          rw [hsub] at hff
          dsimp only at hff
          have hp2 : p2 = i :: sub := (Option.some.inj hff).symm
          subst hp2
          simp only [xLeftAt, hc]
          try dsimp only
          by_cases hv : cax = Axis.vertical
          · rw [if_pos hv, if_pos hv]
            exact ih c sub _ _ hcs hsub
          · rw [if_neg hv, if_neg hv]
            exact ih c sub x w hcs hsub
        | none =>
          rw [hsub] at hff
          dsimp only at hff
          by_cases hv : cax = Axis.vertical
          · rw [if_pos (show cax = Dir.left.axis from hv)] at hff
            rw [if_pos (show Dir.left.isBefore = true from rfl)] at hff
            cases i with
            | zero =>
              dsimp only at hff
              exact Option.noConfusion hff
            | succ ii =>
              rw [show ii + 1 - 1 = ii from rfl] at hff
              cases hsprev : cs[ii]? with
              | none =>
                rw [hsprev] at hff
                exact Option.noConfusion hff
              | some sNode =>
                rw [hsprev] at hff
                dsimp only at hff
                have hp2 : p2 = ii :: descendPath sNode Dir.left :=
                  (Option.some.inj hff).symm
                subst hp2
                subst hv
                have hsn : sumOkB sNode = true :=
                  hkids sNode (getElem?_mem_list cs ii sNode hsprev)
                simp only [xLeftAt, hsprev, hc]
                try dsimp only
                simp only [if_true]
                have hA := xLeftAt_le (descendPath sNode Dir.left) sNode
                  (x + sliceOffset cs ii w) (w * sNode.size / 120) hsn
                have hB : sliceOffset cs (ii + 1) w =
                    sliceOffset cs ii w + w * sNode.size / 120 :=
                  sliceOffset_succ cs ii w sNode hsprev
                have hC := xLeftAt_ge rest c
                  (x + sliceOffset cs (ii + 1) w) (w * c.size / 120)
                omega
          · rw [if_neg (show ¬ cax = Dir.left.axis from hv)] at hff
            exact Option.noConfusion hff

/-- C6: focus Left never moves the focused tile to a position further
right: under the size-sum invariant the focused tile's left x coordinate
(at any root width W) never increases; once focus in a direction leaves
the grid unchanged, every further focus in that direction leaves it
unchanged; concretely, after six pushes and four focus Left calls the
focused window is 2, after two more it is 1, and one further focus Left
keeps it at 1. -/
theorem nog_C6_focus_left_monotone (g : TileGrid) (r : GNode) (fp : List Nat)
    (W : Nat) (hroot : g.root = some r) (hfp : g.focusPath = some fp)
    (hsum : sumOkB r = true) :
    (g.focus Dir.left).focusX W ≤ g.focusX W ∧
    (∀ d : Dir, g.focus d = g →
      ∀ n : Nat, (fun h : TileGrid => h.focus d)^[n] g = g) ∧
    (runScript (List.replicate 6 ScriptAct.p ++
      List.replicate 4 ScriptAct.fl)).focusedWindow = some 2 ∧
    (runScript (List.replicate 6 ScriptAct.p ++
      List.replicate 6 ScriptAct.fl)).focusedWindow = some 1 ∧
    (runScript (List.replicate 6 ScriptAct.p ++
      List.replicate 7 ScriptAct.fl)).focusedWindow = some 1 := by
  refine ⟨?_, ?_, by decide, by decide, by decide⟩
  · have hgx : g.focusX W = xLeftAt r fp 0 W := by
      simp only [TileGrid.focusX, hroot, hfp]
    cases hff : focusFind r fp Dir.left with
    | none =>
      have hid : g.focus Dir.left = g := by
        simp only [TileGrid.focus, hroot, hfp, hff]
      rw [hid]
    | some fp2 =>
      have hfocus : g.focus Dir.left = { g with focusPath := some fp2 } := by
        simp only [TileGrid.focus, hroot, hfp, hff]
      have h1 : ({ g with focusPath := some fp2 } : TileGrid).focusX W =
          xLeftAt r fp2 0 W := by
        simp only [TileGrid.focusX, hroot]
      rw [hfocus, h1, hgx]
      exact focusFind_left_le fp r fp2 0 W hsum hff
  · intro d hfix n
    induction n with
    | zero => rfl
    | succ m ihm =>
      rw [Function.iterate_succ_apply]
      try dsimp only
      rw [hfix]
      exact ihm

/-- Witness for C6 on the six-tile column grid: one focus Left does not
increase the focused tile's left x coordinate, and four focus Left calls
from the sixth tile land on window 2. -/
theorem nog_C6_focus_left_monotone_witness :
    ((runScript (List.replicate 6 ScriptAct.p)).focus Dir.left).focusX 120 ≤
      (runScript (List.replicate 6 ScriptAct.p)).focusX 120 ∧
    (runScript (List.replicate 6 ScriptAct.p ++
      List.replicate 4 ScriptAct.fl)).focusedWindow = some 2 := by
  have hmain := nog_C6_focus_left_monotone (runScript (List.replicate 6 ScriptAct.p))
    (GNode.cont Axis.vertical 120 [GNode.tile 20 1, GNode.tile 20 2,
      GNode.tile 20 3, GNode.tile 20 4, GNode.tile 20 5, GNode.tile 20 6])
    [5] 120 rfl rfl (by decide)
  exact ⟨hmain.1, hmain.2.2.1⟩
